import Mathlib

/-!
Shallow embedding of the data-cleaning session core of `src/app.py`
(a pandas/streamlit data-cleaning tool), together with proofs about it.

Modelling conventions:
* a pandas `DataFrame` is a `Table`: column names, per-column dtypes, and
  row-major cell data;
* a cell is `missing` (NaN), a string, or a number (float64 values are
  modelled as exact rationals);
* Python strings are `List Char`;
* exceptions raised by pandas are modelled with `Except Err`; a streamlit
  rerun that dies with an exception leaves `st.session_state` unchanged.
-/

namespace DataCleaner

/-- A cell of a table: the missing marker (NaN), a string value, or a
numeric value. -/
inductive Cell where
  | missing : Cell
  | str : List Char → Cell
  | num : Rat → Cell
deriving DecidableEq

/-- Column dtype as pandas classifies it for this app: numeric, or object
(text). -/
inductive Dtype where
  | numeric : Dtype
  | object : Dtype
deriving DecidableEq

/-- A `pd.DataFrame`: column names, per-column dtypes, row-major cells. -/
structure Table where
  names : List (List Char)
  dtypes : List Dtype
  rows : List (List Cell)
deriving DecidableEq

deriving instance DecidableEq for Except

/-- The error taxonomy of the spec; pandas `KeyError` is `notFoundError`,
pandas `TypeError` is `typeMismatchError`. -/
inductive Err where
  | parseError : Err
  | notFoundError : Err
  | typeMismatchError : Err
  | invalidInputError : Err
deriving DecidableEq

def isMissing : Cell → Bool
  | .missing => true
  | _ => false

/-- The cells of column `j`, top to bottom (`df[col]` as a value sequence). -/
def colCells (t : Table) (j : Nat) : List Cell :=
  t.rows.filterMap (fun r => r[j]?)

/-- `df.duplicated()` marks every row equal to an earlier row;
`seen` accumulates the rows already passed. -/
def countDups (seen : List (List Cell)) : List (List Cell) → Nat
  | [] => 0
  | r :: rs => (if r ∈ seen then 1 else 0) + countDups (r :: seen) rs

/-- `st.session_state.df.duplicated().sum()` (src/app.py line 48). -/
def duplicate_count (t : Table) : Nat := countDups [] t.rows

/-- `df.isnull().sum()` for one column. -/
def missingCount (t : Table) (j : Nat) : Nat :=
  (colCells t j).countP isMissing

/-- `missing_data.sum()` (src/app.py lines 39-40). -/
def total_missing (t : Table) : Nat :=
  ((List.range t.names.length).map (missingCount t)).sum

/-- Python `str.isspace` characters relevant to `str.strip()`. -/
def isSpaceChar (c : Char) : Bool :=
  c = ' ' || c = '\t' || c = '\n' || c = '\r'

/-- Python `str.strip()` on a string modelled as a character list. -/
def strip (s : List Char) : List Char :=
  ((s.dropWhile isSpaceChar).reverse.dropWhile isSpaceChar).reverse

/-- One term of `len(str(x)) != len(str(x).strip()) if pd.notnull(x) else False`
(src/app.py line 57): numbers render without surrounding whitespace, so only
string cells can show an issue. -/
def whitespaceIssue : Cell → Bool
  | .str s => decide ((strip s).length ≠ s.length)
  | _ => false

/-- `whitespace_issues` (src/app.py lines 54-57): summed over the object
(string) columns only. -/
def whitespace_issues (t : Table) : Nat :=
  ((List.range t.dtypes.length).map (fun j =>
    if t.dtypes[j]? = some Dtype.object then
      (colCells t j).countP whitespaceIssue
    else 0)).sum

/-- `df.drop_duplicates()` keeps each element not equal to an earlier one. -/
def dropDupsAux [DecidableEq α] (seen : List α) : List α → List α
  | [] => []
  | r :: rs =>
    if r ∈ seen then dropDupsAux seen rs
    else r :: dropDupsAux (r :: seen) rs

/-- `st.session_state.df.drop_duplicates(inplace=True)` (src/app.py line 70). -/
def drop_duplicates (t : Table) : Table :=
  { t with rows := dropDupsAux [] t.rows }

/-- Index-aware map over a row, used to address one column inside row-major
data. -/
def mapIdxL (f : Nat → α → β) : List α → List β
  | [] => []
  | a :: as => f 0 a :: mapIdxL (fun i x => f (i + 1) x) as

/-- `.str.strip()` elementwise: strings are stripped, missing stays missing,
and a non-string element yields NaN. -/
def stripCell : Cell → Cell
  | .str s => .str (strip s)
  | .missing => .missing
  | .num _ => .missing

/-- `for col in string_cols: df[col] = df[col].str.strip()`
(src/app.py lines 79-80). -/
def trim_whitespace (t : Table) : Table :=
  { t with rows := t.rows.map (fun r => mapIdxL (fun j c =>
      if t.dtypes[j]? = some Dtype.object then stripCell c else c) r) }

/-- `df[col].fillna(v, inplace=True)`: replace the missing cells of column
`j` with `v` (filling with NaN leaves the column unchanged). -/
def fillColumn (j : Nat) (v : Cell) (rows : List (List Cell)) :
    List (List Cell) :=
  rows.map (fun r => mapIdxL (fun k c =>
    if k = j ∧ isMissing c = true then v else c) r)

/-- The numeric values of a column's cells. -/
def numValues (cells : List Cell) : List Rat :=
  cells.filterMap (fun c => match c with | .num q => some q | _ => none)

/-- Whether the column holds any string data. -/
def hasStrCell (cells : List Cell) : Bool :=
  cells.any (fun c => match c with | .str _ => true | _ => false)

/-- `df[col].mean()`: raises `TypeError` on string data; `NaN` when the
column has no values; otherwise the arithmetic mean. -/
def seriesMean (cells : List Cell) : Except Err Cell :=
  if hasStrCell cells then .error .typeMismatchError
  else
    let vs := numValues cells
    if vs.length = 0 then .ok .missing
    else .ok (.num (vs.sum / (vs.length : Rat)))

/-- `df[col].median()`: raises `TypeError` on string data; `NaN` when the
column has no values; otherwise the middle of the sorted values (mean of the
two middles for an even count). -/
def seriesMedian (cells : List Cell) : Except Err Cell :=
  if hasStrCell cells then .error .typeMismatchError
  else
    let vs := (numValues cells).insertionSort (· ≤ ·)
    if vs.length = 0 then .ok .missing
    else if vs.length % 2 = 1 then .ok (.num (vs.getD (vs.length / 2) 0))
    else .ok (.num ((vs.getD (vs.length / 2 - 1) 0 + vs.getD (vs.length / 2) 0) / 2))

/-- Lexicographic order on strings, and the ascending order pandas sorts a
column's values in. -/
def strLe (a b : List Char) : Bool := decide (a ≤ b)

/-- The ascending order used by `Series.mode` when it sorts the modes. -/
def cellLeB : Cell → Cell → Bool
  | .missing, _ => true
  | _, .missing => false
  | .num a, .num b => decide (a ≤ b)
  | .num _, .str _ => true
  | .str _, .num _ => false
  | .str a, .str b => strLe a b

/-- Whether `v` is among the most frequent elements of `l`. -/
def isMaxCount (l : List Cell) (v : Cell) : Bool :=
  l.all (fun w => l.count w ≤ l.count v)

/-- The least element of a list under `le` (`none` for the empty list). -/
def minBy (le : Cell → Cell → Bool) : List Cell → Option Cell
  | [] => none
  | a :: rest => some (rest.foldl (fun m x => if le m x then m else x) a)

/-- `df[col].mode()[0]`: the most frequent non-missing values, sorted
ascending, at index 0 — the least of the tied modes. `none` when the column
has no values (`[0]` then raises `KeyError`). -/
def seriesMode0 (cells : List Cell) : Option Cell :=
  let vals := cells.filter (fun c => !(isMissing c))
  minBy cellLeB (vals.filter (isMaxCount vals))

/-- Rendering of a fill value inside a log message. -/
def cellRepr : Cell → String
  | .missing => "nan"
  | .str s => String.mk s
  | .num q => toString q.num ++ "/" ++ toString q.den

/-- The ResolveMissing strategies of the per-column form
(src/app.py lines 94-105): the custom value is `none` when the text input
never ran, otherwise the entered string, which may be empty. -/
inductive Strategy where
  | deleteRows : Strategy
  | fillMean : Strategy
  | fillMedian : Strategy
  | fillMode : Strategy
  | fillCustom : Option (List Char) → Strategy
deriving DecidableEq

/-- The cleaning operations, plus the "Select an action..." default that the
apply button dispatches on (src/app.py lines 107-131). -/
inductive Op where
  | removeDuplicates : Op
  | trimWhitespace : Op
  | resolveMissing : List Char → Strategy → Op
  | noAction : Op
deriving DecidableEq

/-- The action list offered for a column (src/app.py lines 94-99): mean and
median only for numeric columns, mode only for the others. -/
def optionsFor (is_numeric : Bool) : List String :=
  ["Select an action...", "Delete rows with missing values"] ++
    (if is_numeric then ["Fill with Mean", "Fill with Median"]
     else ["Fill with Mode (Most Frequent)"]) ++
    ["Fill with Custom Value"]

/-- The Cleaning Engine: one operation applied to a table, giving the new
table and the log message, or the exception the Python code would raise
(src/app.py lines 69-71, 79-81 and 107-131). Accessing an absent column
raises `KeyError` before anything is computed. -/
def applyOp (t : Table) : Op → Except Err (Table × Option String)
  | .removeDuplicates =>
    .ok (drop_duplicates t,
      some ("Removed " ++ toString (duplicate_count t) ++ " duplicate rows."))
  | .trimWhitespace =>
    .ok (trim_whitespace t,
      some ("Trimmed whitespace in " ++ toString (whitespace_issues t) ++ " cells."))
  | .noAction => .ok (t, none)
  | .resolveMissing col strat =>
    match t.names.findIdx? (fun n => n == col) with
    | none => .error .notFoundError
    | some j =>
      match strat with
      | .deleteRows =>
        let rows2 := t.rows.filter (fun r => !(isMissing (r.getD j .missing)))
        .ok ({ t with rows := rows2 },
          some ("Deleted " ++ toString (t.rows.length - rows2.length) ++
            " rows due to missing values in '" ++ String.mk col ++ "'."))
      | .fillMean =>
        match seriesMean (colCells t j) with
        | .error e => .error e
        | .ok v =>
          .ok ({ t with rows := fillColumn j v t.rows },
            some ("Filled missing values in '" ++ String.mk col ++
              "' with mean (" ++ cellRepr v ++ ")."))
      | .fillMedian =>
        match seriesMedian (colCells t j) with
        | .error e => .error e
        | .ok v =>
          .ok ({ t with rows := fillColumn j v t.rows },
            some ("Filled missing values in '" ++ String.mk col ++
              "' with median (" ++ cellRepr v ++ ")."))
      | .fillMode =>
        match seriesMode0 (colCells t j) with
        | none => .error .notFoundError
        | some v =>
          .ok ({ t with rows := fillColumn j v t.rows },
            some ("Filled missing values in '" ++ String.mk col ++
              "' with mode (" ++ cellRepr v ++ ")."))
      | .fillCustom none => .ok (t, none)
      | .fillCustom (some s) =>
        .ok ({ t with rows := fillColumn j (.str s) t.rows },
          some ("Filled missing values in '" ++ String.mk col ++
            "' with custom value: " ++ String.mk s ++ "."))

/-- `st.session_state`: the original table, the working table, and the
cleaning log (src/app.py lines 27-30). -/
structure SessionState where
  original : Table
  current : Table
  log : List String
deriving DecidableEq

/-- Session creation on a successful load (src/app.py lines 27-30). -/
def load (t : Table) : SessionState := ⟨t, t, []⟩

/-- One UI interaction: on success the working table is replaced and the log
message (if any) appended; an exception aborts the rerun and leaves
`st.session_state` untouched. -/
def stepSession (s : SessionState) (op : Op) : SessionState :=
  match applyOp s.current op with
  | .ok (t, some m) => ⟨s.original, t, s.log ++ [m]⟩
  | .ok (t, none) => ⟨s.original, t, s.log⟩
  | .error _ => s

/-- A sequence of interactions. -/
def applyOps (s : SessionState) (ops : List Op) : SessionState :=
  ops.foldl stepSession s

/-- The Reset All Changes button (src/app.py lines 152-155). -/
def reset (s : SessionState) : SessionState := ⟨s.original, s.original, []⟩

/-- The cell at row `i`, column `j` (`df.iat[i, j]`). -/
def cellAt (t : Table) (i j : Nat) : Option Cell :=
  (t.rows[i]?).bind (fun r => r[j]?)

/-- A small text table: one object column `c` with a value and a missing
cell. -/
def tText : Table :=
  ⟨[['c']], [Dtype.object], [[Cell.str ['x']], [Cell.missing]]⟩

/-- A one-column table whose rows are `[A, B, A, C, B]`. -/
def tABACB : Table :=
  ⟨[['v']], [Dtype.object],
    [[Cell.str ['A']], [Cell.str ['B']], [Cell.str ['A']],
      [Cell.str ['C']], [Cell.str ['B']]]⟩

/-- A text column with a frequency tie: `b` and `a` both occur twice, `b`
first, plus a missing cell. -/
def tModeTie : Table :=
  ⟨[['c']], [Dtype.object],
    [[Cell.str ['b']], [Cell.str ['a']], [Cell.str ['b']],
      [Cell.str ['a']], [Cell.missing]]⟩

/-- A table with a column but zero rows. -/
def tEmptyRows : Table := ⟨[['a']], [Dtype.object], []⟩

/-- A numeric column `[1, missing, 3]`. -/
def tNum : Table :=
  ⟨[['n']], [Dtype.numeric], [[Cell.num 1], [Cell.missing], [Cell.num 3]]⟩

/-- Follows the spec's words for FillMode: the most frequent non-missing
value, ties broken in favour of the value first encountered in row order. -/
def firstEncounteredMode (cells : List Cell) : Option Cell :=
  let vals := cells.filter (fun c => !(isMissing c))
  (dropDupsAux [] vals).find? (isMaxCount vals)

/-- The four fill strategies of C10 (DeleteRows excluded). -/
def isFillStrategy : Strategy → Bool
  | .deleteRows => false
  | _ => true

/-- Decimal digit characters. -/
def isDigitChar (c : Char) : Bool := decide (48 ≤ c.toNat ∧ c.toNat ≤ 57)

/-- The decimal digits of `n`, most significant first, as characters. -/
def natToChars (n : Nat) : List Char :=
  if n = 0 then ['0']
  else ((Nat.digits 10 n).map Nat.digitChar).reverse

/-- Value of a most-significant-first digit list, accumulated into `a`. -/
def digitsVal : List Nat → Nat → Nat
  | [], a => a
  | d :: ds, a => digitsVal ds (a * 10 + d)

/-- Parse a nonempty all-digit string. -/
def charsVal? (s : List Char) : Option Nat :=
  if s = [] then none
  else if s.all isDigitChar then
    some (digitsVal (s.map (fun c => c.toNat - 48)) 0)
  else none

/-- The fractional digits, left-padded with zeros to width `k`. -/
def padFrac (k m : Nat) : List Char :=
  List.replicate (k - (natToChars m).length) '0' ++ natToChars m

/-- Decimal rendering of a non-negative rational whose denominator divides a
power of ten, with `q.den` fractional digits — the float64 repr that
`to_csv` writes, in the exact-rational model. -/
def posChars (q : Rat) : List Char :=
  natToChars (q.num.toNat * (10 ^ q.den / q.den) / 10 ^ q.den) ++
    '.' :: padFrac q.den (q.num.toNat * (10 ^ q.den / q.den) % 10 ^ q.den)

/-- Decimal rendering of a numeric cell value. -/
def ratToChars (q : Rat) : List Char :=
  if q < 0 then '-' :: posChars (-q) else posChars q

/-- Exponent part of a number, after `e` or `E`. -/
def parseExp? (s : List Char) : Option Int :=
  match s with
  | '+' :: rest => (charsVal? rest).map (fun n => (n : Int))
  | '-' :: rest => (charsVal? rest).map (fun n => -(n : Int))
  | _ => (charsVal? s).map (fun n => (n : Int))

/-- Parse an unsigned decimal number: digits, an optional point and more
digits, an optional exponent — the numeric forms pandas recognises. -/
def posParse (s : List Char) : Option Rat :=
  let ipcs := s.takeWhile isDigitChar
  let r1 := s.dropWhile isDigitChar
  let ipv : Rat := (digitsVal (ipcs.map (fun c => c.toNat - 48)) 0 : Nat)
  match r1 with
  | [] => if ipcs = [] then none else some ipv
  | c1 :: r2 =>
    if c1 = '.' then
      let fpcs := r2.takeWhile isDigitChar
      let r3 := r2.dropWhile isDigitChar
      let fpv : Rat := (digitsVal (fpcs.map (fun c => c.toNat - 48)) 0 : Nat)
      if ipcs = [] ∧ fpcs = [] then none
      else
        match r3 with
        | [] => some (ipv + fpv / (10 : Rat) ^ fpcs.length)
        | c2 :: r4 =>
          if c2 = 'e' ∨ c2 = 'E' then
            (parseExp? r4).map (fun e =>
              (ipv + fpv / (10 : Rat) ^ fpcs.length) * (10 : Rat) ^ e)
          else none
    else if c1 = 'e' ∨ c1 = 'E' then
      if ipcs = [] then none
      else (parseExp? r2).map (fun e => ipv * (10 : Rat) ^ e)
    else none

/-- Parse a decimal number as the pandas loader would: surrounding
whitespace tolerated, optional sign. -/
def numParse (s : List Char) : Option Rat :=
  match strip s with
  | [] => none
  | c :: rest =>
    if c = '-' then (posParse rest).map (fun q => -q)
    else if c = '+' then posParse rest
    else posParse (c :: rest)

/-- The missing-value tokens the loader recognises: the pandas default
`na_values` set (the empty field is handled separately). -/
def naTokens : List (List Char) :=
  ["#N/A".toList, "#N/A N/A".toList, "#NA".toList, "-1.#IND".toList,
    "-1.#QNAN".toList, "-NaN".toList, "-nan".toList, "1.#IND".toList,
    "1.#QNAN".toList, "<NA>".toList, "N/A".toList, "NA".toList,
    "NULL".toList, "NaN".toList, "None".toList, "n/a".toList,
    "nan".toList, "null".toList]

/-- Whether a raw field reads as missing: empty, or an NA token. -/
def isNaField (f : List Char) : Bool := f.isEmpty || naTokens.contains f

/-- Drop a single leading sign character. -/
def dropSign (s : List Char) : List Char :=
  match s with
  | [] => []
  | c :: rest => if c = '-' || c = '+' then rest else c :: rest

/-- Whether the pandas tokenizer reads the field as an IEEE infinity:
an optional sign and then `inf` or `infinity`, case-insensitively,
surrounding whitespace tolerated. -/
def isInfString (s : List Char) : Bool :=
  ((dropSign (strip s)).map Char.toLower = "inf".toList)
    || ((dropSign (strip s)).map Char.toLower = "infinity".toList)

/-- Whether the pandas tokenizer reads the field as a boolean literal
(its candidate true/false token sets). -/
def isBoolString (s : List Char) : Bool :=
  s = "True".toList || s = "TRUE".toList || s = "true".toList
    || s = "False".toList || s = "FALSE".toList || s = "false".toList

/-- Whether `to_csv` must quote the field. -/
def needsQuote (s : List Char) : Bool :=
  s.any (fun c => c = ',' || c = '"' || c = '\n' || c = '\r')

/-- Double every quote character (CSV escaping). -/
def escapeQuotes : List Char → List Char
  | [] => []
  | c :: rest =>
    if c = '"' then '"' :: '"' :: escapeQuotes rest
    else c :: escapeQuotes rest

/-- A quoted CSV field. -/
def quoteField (s : List Char) : List Char := '"' :: escapeQuotes s ++ ['"']

/-- A text field as `to_csv` writes it: quoted only when it contains the
delimiter, a quote or a newline. -/
def encodeField (s : List Char) : List Char :=
  if needsQuote s then quoteField s else s

/-- One cell as a CSV field: missing writes as the empty field. -/
def fieldOfCell : Cell → List Char
  | .missing => []
  | .num q => ratToChars q
  | .str s => encodeField s

/-- Join fields with a separator character (`sep.join(...)`). -/
def joinSep (sep : Char) : List (List Char) → List Char
  | [] => []
  | [f] => f
  | f :: fs => f ++ sep :: joinSep sep fs

/-- One CSV record. -/
def csvLine (fs : List (List Char)) : List Char := joinSep ',' fs

/-- `st.session_state.df.to_csv(index=False)` (src/app.py line 143): a
header line of the column names, then one line per row. -/
def to_csv (t : Table) : List Char :=
  joinSep '\n'
    (csvLine (t.names.map encodeField)
      :: t.rows.map (fun r => csvLine (r.map fieldOfCell)))

/-- Split on a character; inverse of `joinSep` for parts free of it. -/
def splitOnChar (c : Char) : List Char → List (List Char)
  | [] => [[]]
  | a :: rest =>
    match splitOnChar c rest with
    | [] => if a = c then [[], []] else [[a]]
    | f :: fs => if a = c then [] :: f :: fs else (a :: f) :: fs

/-- `pd.read_csv` (src/app.py line 18) on the fragment of the CSV format
this model of tables can carry: blank lines are skipped, the first line is
the header, a column is numeric exactly when every non-missing field parses
as a number, and empty fields or NA tokens load as missing. Inconsistent
field counts raise ParseError. Two kinds of input lie outside the model and
are rejected rather than mis-modelled: quoted fields (the round-trip
theorem restricts text to delimiter-free fields, which `to_csv` never
quotes), and fields the tokenizer reads as boolean literals or IEEE
infinities — those would load as a bool dtype or an infinite float, neither
of which the two-dtype, exact-rational `Cell` model can represent. -/
def read_csv (s : List Char) : Except Err Table :=
  match (splitOnChar '\n' s).filter (fun l => !(l.isEmpty)) with
  | [] => .error .parseError
  | header :: dataLines =>
    let names := splitOnChar ',' header
    let fieldRows := dataLines.map (splitOnChar ',')
    if fieldRows.all (fun r => r.length = names.length) then
      if fieldRows.any (fun r => r.any (fun f => isInfString f || isBoolString f)) then
        .error .parseError
      else
        let colNumeric : Nat → Bool := fun j =>
          (fieldRows.filterMap (fun r => r[j]?)).all
            (fun f => isNaField f || (numParse f).isSome)
        .ok ⟨names,
          (List.range names.length).map
            (fun j => if colNumeric j then Dtype.numeric else Dtype.object),
          fieldRows.map (fun r => mapIdxL (fun j f =>
            if isNaField f then Cell.missing
            else if colNumeric j then
              match numParse f with
              | some q => Cell.num q
              | none => Cell.str f
            else Cell.str f) r)⟩
    else .error .parseError

/-- A numeric cell the export's decimal rendering can carry exactly:
missing, or a rational whose denominator divides a power of ten. -/
def cellOkNumericB : Cell → Bool
  | .missing => true
  | .num q => decide (q.den ∣ 10 ^ q.den)
  | .str _ => false

/-- A text cell the loader hands back verbatim: missing, or a nonempty
delimiter-free string that parses as neither a number, an NA token, an
infinity, nor a boolean literal. -/
def cellOkTextB : Cell → Bool
  | .missing => true
  | .num _ => false
  | .str s =>
    !(s.isEmpty) && !(needsQuote s) && (numParse s).isNone
      && !(naTokens.contains s) && !(isInfString s) && !(isBoolString s)

/-- The tables whose export the loader reads back verbatim: at least one
column and one row, rectangular, distinct nonempty delimiter-free column
names, numeric columns of finite-decimal rationals, text columns of
loader-invariant strings (no NA tokens, booleans, infinities or
number-like strings) with at least one string value, and no row that
serialises to a blank line (the loader skips blank lines). -/
def wellFormed (t : Table) : Prop :=
  t.names ≠ [] ∧
    t.names.Nodup ∧
    (∀ nm ∈ t.names, nm ≠ [] ∧ needsQuote nm = false) ∧
    t.dtypes.length = t.names.length ∧
    t.rows ≠ [] ∧
    (∀ r ∈ t.rows, r.length = t.names.length) ∧
    (∀ r ∈ t.rows, csvLine (r.map fieldOfCell) ≠ []) ∧
    ∀ j < t.names.length,
      (t.dtypes[j]? = some Dtype.numeric →
        ∀ c ∈ colCells t j, cellOkNumericB c = true) ∧
      (t.dtypes[j]? = some Dtype.object →
        (∀ c ∈ colCells t j, cellOkTextB c = true) ∧
          hasStrCell (colCells t j) = true)

instance wellFormedDecidable (t : Table) : Decidable (wellFormed t) := by
  unfold wellFormed
  infer_instance

/-- A well-formed table for the C6 witness: an all-missing numeric column
and a text column. -/
def tRound : Table :=
  ⟨[['n'], ['s']], [Dtype.numeric, Dtype.object],
    [[Cell.missing, Cell.str ['a']],
      [Cell.missing, Cell.str [' ', 'b']]]⟩

/-- Follows the spec's words: the number of distinct full row-tuples of the
table. -/
def distinctRowCount (t : Table) : Nat := t.rows.dedup.length

theorem countDups_add_card (l : List (List Cell)) :
    ∀ seen : List (List Cell),
      (l.toFinset \ seen.toFinset).card + countDups seen l = l.length := by
  induction l with
  | nil => intro seen; simp [countDups]
  | cons a l ih =>
    intro seen
    have hins : (a :: l).toFinset = insert a l.toFinset := List.toFinset_cons
    by_cases h : a ∈ seen
    · have h1 : insert a seen.toFinset = seen.toFinset :=
        Finset.insert_eq_self.mpr (List.mem_toFinset.mpr h)
      have h2 := ih (a :: seen)
      rw [List.toFinset_cons, h1] at h2
      have h3 : (a :: l).toFinset \ seen.toFinset = l.toFinset \ seen.toFinset := by
        rw [hins]; exact Finset.insert_sdiff_of_mem _ (List.mem_toFinset.mpr h)
      simp only [countDups, if_pos h, h3, List.length_cons]
      omega
    · have h2 := ih (a :: seen)
      rw [List.toFinset_cons] at h2
      have hna : a ∉ seen.toFinset := fun hc => h (List.mem_toFinset.mp hc)
      have h3 : (a :: l).toFinset \ seen.toFinset
          = insert a (l.toFinset \ seen.toFinset) := by
        rw [hins]; exact Finset.insert_sdiff_of_not_mem _ hna
      have h4 : l.toFinset \ insert a seen.toFinset
          = (l.toFinset \ seen.toFinset).erase a := by
        ext b
        simp only [Finset.mem_sdiff, Finset.mem_insert, Finset.mem_erase]
        tauto
      rw [h4] at h2
      by_cases hY : a ∈ l.toFinset \ seen.toFinset
      · have hc1 : (insert a (l.toFinset \ seen.toFinset)).card
            = (l.toFinset \ seen.toFinset).card := by
          rw [Finset.insert_eq_self.mpr hY]
        have hc2 := Finset.card_erase_of_mem hY
        have hpos : 0 < (l.toFinset \ seen.toFinset).card :=
          Finset.card_pos.mpr ⟨a, hY⟩
        simp only [countDups, if_neg h, h3, List.length_cons, hc1]
        omega
      · have hc1 := Finset.card_insert_of_not_mem hY
        rw [Finset.erase_eq_of_not_mem hY] at h2
        simp only [countDups, if_neg h, h3, List.length_cons, hc1]
        omega

/-- C1: for every table, the Quality Analyzer's duplicate-row count equals
the number of rows minus the number of distinct full row-tuples. -/
theorem C1_duplicate_count_eq (t : Table) :
    duplicate_count t = t.rows.length - distinctRowCount t := by
  have h := countDups_add_card t.rows []
  simp only [List.toFinset_nil, Finset.sdiff_empty] at h
  have hc : t.rows.toFinset.card = t.rows.dedup.length := List.card_toFinset t.rows
  unfold duplicate_count distinctRowCount
  omega

theorem stepSession_original (s : SessionState) (op : Op) :
    (stepSession s op).original = s.original := by
  unfold stepSession
  cases applyOp s.current op with
  | error e => rfl
  | ok p =>
    rcases p with ⟨t, m⟩
    cases m <;> rfl

theorem applyOps_original (s : SessionState) (ops : List Op) :
    (applyOps s ops).original = s.original := by
  induction ops generalizing s with
  | nil => rfl
  | cons op ops ih =>
    unfold applyOps at *
    simp only [List.foldl_cons]
    rw [ih (stepSession s op), stepSession_original]

/-- C2: after any sequence of operations on a loaded table, reset makes the
current table structurally equal to the originally loaded table and empties
the log. -/
theorem C2_reset_restores (t : Table) (ops : List Op) :
    (reset (applyOps (load t) ops)).current = t ∧
      (reset (applyOps (load t) ops)).log = [] ∧
      reset (applyOps (load t) ops) = load t := by
  have h : (applyOps (load t) ops).original = t := applyOps_original (load t) ops
  refine ⟨h, rfl, ?_⟩
  unfold reset
  rw [h]
  rfl

/-- C3: FillMean or FillMedian on a text column (object dtype, holding at
least one string value) raises TypeMismatchError, and the failed apply
leaves the session's current table and log unchanged. -/
theorem C3_fill_mean_median_text_error (t : Table) (col : List Char) (j : Nat)
    (hj : t.names.findIdx? (fun n => n == col) = some j)
    (hdt : t.dtypes[j]? = some Dtype.object)
    (hs : hasStrCell (colCells t j) = true) :
    applyOp t (.resolveMissing col .fillMean) = .error .typeMismatchError ∧
      applyOp t (.resolveMissing col .fillMedian) = .error .typeMismatchError ∧
      ∀ s : SessionState, s.current = t →
        stepSession s (.resolveMissing col .fillMean) = s ∧
          stepSession s (.resolveMissing col .fillMedian) = s := by
  have h1 : applyOp t (.resolveMissing col .fillMean) = .error .typeMismatchError := by
    simp only [applyOp, hj, seriesMean, hs]
    rfl
  have h2 : applyOp t (.resolveMissing col .fillMedian) = .error .typeMismatchError := by
    simp only [applyOp, hj, seriesMedian, hs]
    rfl
  refine ⟨h1, h2, fun s hcur => ⟨?_, ?_⟩⟩
  · unfold stepSession
    rw [hcur, h1]
  · unfold stepSession
    rw [hcur, h2]

/-- Witness for C3 at a concrete text table. -/
theorem C3_witness :
    (tText.names.findIdx? (fun n => n == ['c']) = some 0 ∧
        tText.dtypes[0]? = some Dtype.object ∧
        hasStrCell (colCells tText 0) = true) ∧
      applyOp tText (.resolveMissing ['c'] .fillMean) = .error .typeMismatchError := by
  refine ⟨⟨by decide, by decide, by decide⟩, ?_⟩
  exact (C3_fill_mean_median_text_error tText ['c'] 0 (by decide) (by decide) (by decide)).1

theorem dropDupsAux_congr (l : List (List Cell)) :
    ∀ s1 s2 : List (List Cell), (∀ x, x ∈ s1 ↔ x ∈ s2) →
      dropDupsAux s1 l = dropDupsAux s2 l := by
  induction l with
  | nil => intro s1 s2 h; rfl
  | cons a l ih =>
    intro s1 s2 h
    by_cases ha : a ∈ s1
    · simp only [dropDupsAux, if_pos ha, if_pos ((h a).mp ha)]
      exact ih s1 s2 h
    · have ha2 : a ∉ s2 := fun hc => ha ((h a).mpr hc)
      simp only [dropDupsAux, if_neg ha, if_neg ha2]
      congr 1
      refine ih (a :: s1) (a :: s2) (fun x => ?_)
      simp only [List.mem_cons, h x]

theorem foldl_keep_first (l : List (List Cell)) :
    ∀ acc : List (List Cell),
      l.foldl (fun acc r => if r ∈ acc then acc else acc ++ [r]) acc
        = acc ++ dropDupsAux acc l := by
  induction l with
  | nil => intro acc; simp [dropDupsAux]
  | cons a l ih =>
    intro acc
    simp only [List.foldl_cons]
    by_cases ha : a ∈ acc
    · rw [if_pos ha, ih acc]
      simp only [dropDupsAux, if_pos ha]
    · rw [if_neg ha, ih (acc ++ [a])]
      have hcg : dropDupsAux (acc ++ [a]) l = dropDupsAux (a :: acc) l := by
        refine dropDupsAux_congr l _ _ (fun x => ?_)
        simp [or_comm]
      rw [hcg]
      simp only [dropDupsAux, if_neg ha, List.append_assoc, List.singleton_append]

theorem countDups_add_kept (l : List (List Cell)) :
    ∀ seen : List (List Cell),
      countDups seen l + (dropDupsAux seen l).length = l.length := by
  induction l with
  | nil => intro seen; rfl
  | cons a l ih =>
    intro seen
    by_cases ha : a ∈ seen
    · have hcg : dropDupsAux seen l = dropDupsAux (a :: seen) l := by
        refine dropDupsAux_congr l _ _ (fun x => ?_)
        simp only [List.mem_cons]
        constructor
        · exact fun hx => Or.inr hx
        · rintro (rfl | hx)
          · exact ha
          · exact hx
      simp only [countDups, dropDupsAux, if_pos ha, List.length_cons, hcg]
      have := ih (a :: seen)
      omega
    · simp only [countDups, dropDupsAux, if_neg ha, List.length_cons]
      have := ih (a :: seen)
      omega

/-- C4: RemoveDuplicates keeps the first occurrence of each distinct row in
original order and drops the later duplicates (the foldl on the right keeps
a row exactly when it has not been kept before); its log message records the
number of rows removed; and on rows `[A, B, A, C, B]` it yields `[A, B, C]`
with the log "Removed 2 duplicate rows.". -/
theorem C4_remove_duplicates (t : Table) :
    (drop_duplicates t).rows
        = t.rows.foldl (fun acc r => if r ∈ acc then acc else acc ++ [r]) [] ∧
      applyOp t .removeDuplicates
        = .ok (drop_duplicates t,
            some ("Removed "
              ++ toString (t.rows.length - (drop_duplicates t).rows.length)
              ++ " duplicate rows.")) ∧
      (drop_duplicates tABACB).rows
        = [[Cell.str ['A']], [Cell.str ['B']], [Cell.str ['C']]] ∧
      applyOp tABACB .removeDuplicates
        = .ok (drop_duplicates tABACB, some "Removed 2 duplicate rows.") := by
  refine ⟨?_, ?_, by decide, by decide⟩
  · rw [foldl_keep_first t.rows []]
    rfl
  · have hck := countDups_add_kept t.rows []
    have h : duplicate_count t = t.rows.length - (drop_duplicates t).rows.length := by
      simp only [duplicate_count, drop_duplicates]
      omega
    rw [show applyOp t .removeDuplicates
        = .ok (drop_duplicates t,
            some ("Removed " ++ toString (duplicate_count t) ++ " duplicate rows."))
      from rfl, h]

theorem dropWhile_eq_self_of_prefix (p : Char → Bool) (m n : List Char)
    (hpre : n <+: m) (hm : m.dropWhile p = m) : n.dropWhile p = n := by
  cases m with
  | nil =>
    have hn : n = [] := List.prefix_nil.mp hpre
    subst hn; rfl
  | cons a m2 =>
    have hpa : p a = false := by
      cases h : p a with
      | false => rfl
      | true =>
        exfalso
        rw [List.dropWhile_cons, if_pos h] at hm
        have hle := (List.dropWhile_suffix (l := m2) p).length_le
        rw [hm] at hle
        simp at hle
    cases n with
    | nil => rfl
    | cons b n2 =>
      obtain ⟨u, hu⟩ := hpre
      rw [List.cons_append] at hu
      have hb : b = a := (List.cons.injEq _ _ _ _ ▸ hu).1
      subst hb
      rw [List.dropWhile_cons, if_neg (by rw [hpa]; exact Bool.false_ne_true)]

theorem strip_strip (s : List Char) : strip (strip s) = strip s := by
  have hm : (s.dropWhile isSpaceChar).dropWhile isSpaceChar
      = s.dropWhile isSpaceChar := List.dropWhile_idempotent isSpaceChar s
  have hpre : strip s <+: s.dropWhile isSpaceChar := by
    have h2 : (s.dropWhile isSpaceChar).reverse.dropWhile isSpaceChar
        <:+ (s.dropWhile isSpaceChar).reverse := List.dropWhile_suffix _
    have h3 := List.reverse_prefix.mpr h2
    rwa [List.reverse_reverse] at h3
  have hF : (strip s).dropWhile isSpaceChar = strip s :=
    dropWhile_eq_self_of_prefix _ _ _ hpre hm
  show (((strip s).dropWhile isSpaceChar).reverse.dropWhile isSpaceChar).reverse
    = strip s
  rw [hF]
  conv_lhs =>
    rw [show strip s
        = ((s.dropWhile isSpaceChar).reverse.dropWhile isSpaceChar).reverse from rfl]
  rw [List.reverse_reverse, List.dropWhile_idempotent]
  rfl

theorem stripCell_stripCell (c : Cell) : stripCell (stripCell c) = stripCell c := by
  cases c with
  | missing => rfl
  | num q => rfl
  | str s =>
    simp only [stripCell]
    rw [strip_strip]

theorem whitespaceIssue_stripCell (c : Cell) :
    whitespaceIssue (stripCell c) = false := by
  cases c with
  | missing => rfl
  | num q => rfl
  | str s =>
    simp only [stripCell, whitespaceIssue]
    rw [strip_strip]
    simp

theorem mapIdxL_getElem? (f : Nat → α → β) (l : List α) (j : Nat) :
    (mapIdxL f l)[j]? = l[j]?.map (f j) := by
  induction l generalizing f j with
  | nil => simp [mapIdxL]
  | cons a as ih =>
    cases j with
    | zero => simp [mapIdxL]
    | succ j2 =>
      simp only [mapIdxL, List.getElem?_cons_succ]
      exact ih (fun i x => f (i + 1) x) j2

theorem mapIdxL_comp (f : Nat → β → γ) (g : Nat → α → β) (l : List α) :
    mapIdxL f (mapIdxL g l) = mapIdxL (fun i x => f i (g i x)) l := by
  induction l generalizing f g with
  | nil => rfl
  | cons a as ih =>
    simp only [mapIdxL]
    congr 1
    exact ih _ _

theorem mapIdxL_congr (f g : Nat → α → β) (l : List α)
    (h : ∀ i x, f i x = g i x) : mapIdxL f l = mapIdxL g l := by
  induction l generalizing f g with
  | nil => rfl
  | cons a as ih =>
    simp only [mapIdxL, h 0 a]
    congr 1
    exact ih _ _ (fun i x => h (i + 1) x)

theorem table_eq (a b : Table) (h1 : a.names = b.names)
    (h2 : a.dtypes = b.dtypes) (h3 : a.rows = b.rows) : a = b := by
  cases a; cases b
  simp_all

theorem trim_rows (t : Table) :
    (trim_whitespace t).rows = t.rows.map (fun r => mapIdxL (fun j c =>
      if t.dtypes[j]? = some Dtype.object then stripCell c else c) r) := rfl

theorem trim_dtypes (t : Table) : (trim_whitespace t).dtypes = t.dtypes := rfl

theorem colCells_trim (t : Table) (j : Nat) :
    colCells (trim_whitespace t) j
      = (colCells t j).map (fun c =>
          if t.dtypes[j]? = some Dtype.object then stripCell c else c) := by
  unfold colCells
  rw [trim_rows, List.filterMap_map, List.map_filterMap]
  apply List.filterMap_congr
  intro r hr
  simp only [Function.comp_apply, mapIdxL_getElem?]

/-- C5: TrimWhitespace is idempotent, the trimmed table shows zero
whitespace anomalies, and missing cells stay missing under trimming. -/
theorem C5_trim_idempotent (t : Table) :
    trim_whitespace (trim_whitespace t) = trim_whitespace t ∧
      whitespace_issues (trim_whitespace t) = 0 ∧
      ∀ i j : Nat, cellAt t i j = some Cell.missing →
        cellAt (trim_whitespace t) i j = some Cell.missing := by
  refine ⟨?_, ?_, ?_⟩
  · refine table_eq _ _ rfl rfl ?_
    rw [trim_rows (trim_whitespace t), trim_dtypes, trim_rows t, List.map_map]
    apply List.map_congr_left
    intro r hr
    simp only [Function.comp_apply]
    rw [mapIdxL_comp]
    apply mapIdxL_congr
    intro i c
    by_cases h : t.dtypes[i]? = some Dtype.object
    · simp [h, stripCell_stripCell]
    · simp [h]
  · unfold whitespace_issues
    apply List.sum_eq_zero
    intro x hx
    rw [List.mem_map] at hx
    obtain ⟨j, hj, rfl⟩ := hx
    rw [trim_dtypes]
    by_cases h : t.dtypes[j]? = some Dtype.object
    · rw [if_pos h, colCells_trim, List.countP_map]
      refine List.countP_eq_zero.mpr (fun c hc => ?_)
      simp [Function.comp, h, whitespaceIssue_stripCell]
    · rw [if_neg h]
  · intro i j hmiss
    unfold cellAt at hmiss ⊢
    rw [trim_rows, List.getElem?_map]
    cases hrow : t.rows[i]? with
    | none =>
      rw [hrow] at hmiss
      simp at hmiss
    | some r =>
      rw [hrow] at hmiss
      simp only [Option.some_bind] at hmiss
      simp only [Option.map_some', Option.some_bind]
      rw [mapIdxL_getElem?, hmiss]
      by_cases h : t.dtypes[j]? = some Dtype.object
      · simp [h, stripCell]
      · simp [h]

/-- Witness for C5 at a concrete table. -/
theorem C5_witness :
    cellAt tText 1 0 = some Cell.missing ∧
      cellAt (trim_whitespace tText) 1 0 = some Cell.missing :=
  ⟨by decide, (C5_trim_idempotent tText).2.2 1 0 (by decide)⟩

theorem foldl_min_mem (le : Cell → Cell → Bool) (rest : List Cell) :
    ∀ a : Cell,
      rest.foldl (fun m x => if le m x then m else x) a ∈ a :: rest := by
  induction rest with
  | nil => intro a; simp
  | cons b bs ih =>
    intro a
    simp only [List.foldl_cons]
    by_cases h : le a b
    · rw [if_pos h]
      have hm := ih a
      rw [List.mem_cons] at hm
      rcases hm with hm | hm
      · rw [hm]; simp
      · simp [List.mem_cons, hm]
    · rw [if_neg h]
      have hm := ih b
      rw [List.mem_cons] at hm
      rcases hm with hm | hm
      · rw [hm]; simp
      · simp [List.mem_cons, hm]

theorem foldl_min_le (le : Cell → Cell → Bool)
    (htot : ∀ a b, le a b = true ∨ le b a = true)
    (htrans : ∀ a b c, le a b = true → le b c = true → le a c = true)
    (rest : List Cell) :
    ∀ a x : Cell, x ∈ a :: rest →
      le (rest.foldl (fun m x => if le m x then m else x) a) x = true := by
  induction rest with
  | nil =>
    intro a x hx
    rw [List.mem_singleton] at hx
    subst hx
    simp only [List.foldl_nil]
    rcases htot x x with h | h <;> exact h
  | cons b bs ih =>
    intro a x hx
    simp only [List.foldl_cons]
    have hx2 : x = a ∨ x = b ∨ x ∈ bs := by
      rw [List.mem_cons, List.mem_cons] at hx
      exact hx
    by_cases h : le a b
    · rw [if_pos h]
      rcases hx2 with h1 | h1 | h1
      · exact ih a x (by rw [List.mem_cons]; exact Or.inl h1)
      · have hres := ih a a (by simp)
        have h2 := htrans _ a b hres h
        rw [h1]
        exact h2
      · exact ih a x (by rw [List.mem_cons]; exact Or.inr h1)
    · rw [if_neg h]
      rcases htot a b with hab | hba
      · exact absurd hab h
      · rcases hx2 with h1 | h1 | h1
        · have hres := ih b b (by simp)
          have h2 := htrans _ b a hres hba
          rw [h1]
          exact h2
        · exact ih b x (by rw [List.mem_cons]; exact Or.inl h1)
        · exact ih b x (by rw [List.mem_cons]; exact Or.inr h1)

theorem minBy_mem (le : Cell → Cell → Bool) (l : List Cell) (m : Cell)
    (h : minBy le l = some m) : m ∈ l := by
  cases l with
  | nil => simp [minBy] at h
  | cons a rest =>
    simp only [minBy, Option.some.injEq] at h
    rw [← h]
    exact foldl_min_mem le rest a

theorem minBy_le (le : Cell → Cell → Bool)
    (htot : ∀ a b, le a b = true ∨ le b a = true)
    (htrans : ∀ a b c, le a b = true → le b c = true → le a c = true)
    (l : List Cell) (m : Cell) (h : minBy le l = some m) :
    ∀ x ∈ l, le m x = true := by
  cases l with
  | nil => simp [minBy] at h
  | cons a rest =>
    simp only [minBy, Option.some.injEq] at h
    intro x hx
    rw [← h]
    exact foldl_min_le le htot htrans rest a x hx

theorem cellLeB_total (a b : Cell) : cellLeB a b = true ∨ cellLeB b a = true := by
  cases a <;> cases b <;> simp [cellLeB, strLe] <;> first
    | exact le_total _ _
    | skip

theorem cellLeB_trans (a b c : Cell) (h1 : cellLeB a b = true)
    (h2 : cellLeB b c = true) : cellLeB a c = true := by
  cases a <;> cases b <;> cases c <;>
    simp [cellLeB, strLe] at h1 h2 ⊢ <;> exact le_trans h1 h2

/-- C7 counterexample: on the tied column `[b, a, b, a, missing]` the code
fills with `a` (pandas sorts the tied modes and `[0]` takes the least),
while the claim's first-encountered tie-break demands `b`. -/
theorem C7_counterexample :
    firstEncounteredMode (colCells tModeTie 0) = some (Cell.str ['b']) ∧
      applyOp tModeTie (.resolveMissing ['c'] .fillMode)
        = .ok (⟨tModeTie.names, tModeTie.dtypes,
            [[Cell.str ['b']], [Cell.str ['a']], [Cell.str ['b']],
              [Cell.str ['a']], [Cell.str ['a']]]⟩,
            some "Filled missing values in 'c' with mode (a).") ∧
      Cell.str ['a'] ≠ Cell.str ['b'] :=
  ⟨by decide, by decide, by decide⟩

/-- C7 (amended): FillMode replaces every missing cell of the target column
with the value `seriesMode0`, which has maximal frequency among the
non-missing values; ties are broken in favour of the least such value in the
library's ascending sort order (not the first-encountered one); the log
records the value used. -/
theorem C7_fill_mode_amended (t : Table) (col : List Char) (j : Nat)
    (hj : t.names.findIdx? (fun n => n == col) = some j)
    (v : Cell) (hv : seriesMode0 (colCells t j) = some v) :
    applyOp t (.resolveMissing col .fillMode)
        = .ok ({ t with rows := fillColumn j v t.rows },
            some ("Filled missing values in '" ++ String.mk col ++
              "' with mode (" ++ cellRepr v ++ ").")) ∧
      v ∈ (colCells t j).filter (fun c => !(isMissing c)) ∧
      isMaxCount ((colCells t j).filter (fun c => !(isMissing c))) v = true ∧
      ∀ w ∈ (colCells t j).filter (fun c => !(isMissing c)),
        isMaxCount ((colCells t j).filter (fun c => !(isMissing c))) w = true →
          cellLeB v w = true := by
  have hv2 : minBy cellLeB
      (((colCells t j).filter (fun c => !(isMissing c))).filter
        (isMaxCount ((colCells t j).filter (fun c => !(isMissing c)))))
      = some v := hv
  have hmem := minBy_mem _ _ _ hv2
  rw [List.mem_filter] at hmem
  refine ⟨?_, hmem.1, hmem.2, ?_⟩
  · simp only [applyOp, hj, hv]
  · intro w hw hmax
    exact minBy_le cellLeB cellLeB_total cellLeB_trans _ _ hv2 w
      (List.mem_filter.mpr ⟨hw, hmax⟩)

/-- Witness for C7 at the concrete tied column. -/
theorem C7_witness :
    (tModeTie.names.findIdx? (fun n => n == ['c']) = some 0 ∧
        seriesMode0 (colCells tModeTie 0) = some (Cell.str ['a'])) ∧
      applyOp tModeTie (.resolveMissing ['c'] .fillMode)
        = .ok ({ tModeTie with rows := fillColumn 0 (Cell.str ['a']) tModeTie.rows },
            some ("Filled missing values in '" ++ String.mk ['c'] ++
              "' with mode (" ++ cellRepr (Cell.str ['a']) ++ ").")) :=
  ⟨⟨by decide, by decide⟩,
    (C7_fill_mode_amended tModeTie ['c'] 0 (by decide) _ (by decide)).1⟩

/-- C9 counterexample: operations applied to a zero-row table do not raise
NotFoundError — RemoveDuplicates on the empty table succeeds as a no-op. -/
theorem C9_counterexample :
    applyOp tEmptyRows .removeDuplicates
        = .ok (tEmptyRows, some "Removed 0 duplicate rows.") ∧
      applyOp tEmptyRows .removeDuplicates ≠ .error Err.notFoundError ∧
      applyOp tEmptyRows (.resolveMissing ['a'] .deleteRows)
        ≠ .error Err.notFoundError :=
  ⟨by decide, by decide, by decide⟩

/-- C9 (amended): ResolveMissing on a target column absent from the table
fails with NotFoundError before any computation — the session state is left
unchanged — while on a zero-row table no operation fails; instead every
quality metric is zero, so the surface offers no operation there. -/
theorem C9_not_found_amended :
    (∀ (t : Table) (col : List Char) (strat : Strategy),
        t.names.findIdx? (fun n => n == col) = none →
          applyOp t (.resolveMissing col strat) = .error Err.notFoundError ∧
            ∀ s : SessionState, s.current = t →
              stepSession s (.resolveMissing col strat) = s) ∧
      ∀ t : Table, t.rows = [] →
        duplicate_count t = 0 ∧ total_missing t = 0 ∧
          whitespace_issues t = 0 := by
  constructor
  · intro t col strat hnone
    have h1 : applyOp t (.resolveMissing col strat) = .error Err.notFoundError := by
      simp only [applyOp, hnone]
    refine ⟨h1, fun s hcur => ?_⟩
    unfold stepSession
    rw [hcur, h1]
  · intro t ht
    have hcol : ∀ j, colCells t j = [] := by
      intro j
      unfold colCells
      rw [ht]
      rfl
    refine ⟨?_, ?_, ?_⟩
    · unfold duplicate_count
      rw [ht]
      rfl
    · unfold total_missing
      apply List.sum_eq_zero
      intro x hx
      rw [List.mem_map] at hx
      obtain ⟨j, hj, rfl⟩ := hx
      unfold missingCount
      rw [hcol j]
      rfl
    · unfold whitespace_issues
      apply List.sum_eq_zero
      intro x hx
      rw [List.mem_map] at hx
      obtain ⟨j, hj, rfl⟩ := hx
      by_cases h : t.dtypes[j]? = some Dtype.object
      · rw [if_pos h, hcol j]
        rfl
      · rw [if_neg h]

/-- Witness for C9: a lookup of an absent column fails, and the zero-row
table has all-zero quality metrics. -/
theorem C9_witness :
    (tText.names.findIdx? (fun n => n == ['z']) = none ∧
        applyOp tText (.resolveMissing ['z'] .fillMean)
          = .error Err.notFoundError) ∧
      (tEmptyRows.rows = ([] : List (List Cell)) ∧
        duplicate_count tEmptyRows = 0) :=
  ⟨⟨by decide,
      (C9_not_found_amended.1 tText ['z'] .fillMean (by decide)).1⟩,
    ⟨rfl, (C9_not_found_amended.2 tEmptyRows rfl).1⟩⟩

theorem fillColumn_length (j : Nat) (v : Cell) (rows : List (List Cell)) :
    (fillColumn j v rows).length = rows.length := by
  unfold fillColumn
  rw [List.length_map]

theorem cellAt_fillColumn (t : Table) (j : Nat) (v : Cell) (i k : Nat) :
    cellAt { t with rows := fillColumn j v t.rows } i k
      = (cellAt t i k).map
          (fun c => if k = j ∧ isMissing c = true then v else c) := by
  unfold cellAt fillColumn
  dsimp only
  rw [List.getElem?_map]
  cases t.rows[i]? with
  | none => rfl
  | some r =>
    simp only [Option.map_some', Option.some_bind]
    rw [mapIdxL_getElem?]

theorem fill_frame (t : Table) (j : Nat) (v : Cell) :
    ({ t with rows := fillColumn j v t.rows } : Table).names = t.names ∧
      ({ t with rows := fillColumn j v t.rows } : Table).dtypes = t.dtypes ∧
      ({ t with rows := fillColumn j v t.rows } : Table).rows.length
        = t.rows.length ∧
      (∀ i k : Nat, k ≠ j →
        cellAt { t with rows := fillColumn j v t.rows } i k = cellAt t i k) ∧
      (∀ i k : Nat, ∀ c : Cell,
        cellAt t i k = some c → isMissing c = false →
          cellAt { t with rows := fillColumn j v t.rows } i k = some c) := by
  refine ⟨rfl, rfl, fillColumn_length j v t.rows, ?_, ?_⟩
  · intro i k hk
    rw [cellAt_fillColumn]
    cases hc : cellAt t i k with
    | none => rfl
    | some c =>
      simp only [Option.map_some']
      rw [if_neg (fun hcon => hk hcon.1)]
  · intro i k c hc hm
    rw [cellAt_fillColumn, hc]
    simp only [Option.map_some']
    rw [if_neg (fun hcon => by rw [hm] at hcon; exact Bool.false_ne_true hcon.2)]

/-- C10: every fill strategy (FillMean, FillMedian, FillMode, FillCustom)
that succeeds preserves the column structure, the row count and row order,
every cell outside the target column, and every non-missing cell of the
target column: only missing cells of the target column can change. -/
theorem C10_fill_frame (t : Table) (col : List Char) (j : Nat)
    (strat : Strategy) (hfill : isFillStrategy strat = true)
    (hj : t.names.findIdx? (fun n => n == col) = some j)
    (t2 : Table) (m : Option String)
    (happ : applyOp t (.resolveMissing col strat) = .ok (t2, m)) :
    t2.names = t.names ∧ t2.dtypes = t.dtypes ∧
      t2.rows.length = t.rows.length ∧
      (∀ i k : Nat, k ≠ j → cellAt t2 i k = cellAt t i k) ∧
      (∀ i k : Nat, ∀ c : Cell, cellAt t i k = some c → isMissing c = false →
        cellAt t2 i k = some c) := by
  cases strat with
  | deleteRows => simp [isFillStrategy] at hfill
  | fillMean =>
    cases hsm : seriesMean (colCells t j) with
    | error e =>
      simp only [applyOp, hj, hsm] at happ
      exact Except.noConfusion happ
    | ok v =>
      simp only [applyOp, hj, hsm] at happ
      injection happ with h
      have ht2 : t2 = { t with rows := fillColumn j v t.rows } :=
        (congrArg Prod.fst h).symm
      subst ht2
      exact fill_frame t j v
  | fillMedian =>
    cases hsm : seriesMedian (colCells t j) with
    | error e =>
      simp only [applyOp, hj, hsm] at happ
      exact Except.noConfusion happ
    | ok v =>
      simp only [applyOp, hj, hsm] at happ
      injection happ with h
      have ht2 : t2 = { t with rows := fillColumn j v t.rows } :=
        (congrArg Prod.fst h).symm
      subst ht2
      exact fill_frame t j v
  | fillMode =>
    cases hsm : seriesMode0 (colCells t j) with
    | none =>
      simp only [applyOp, hj, hsm] at happ
      exact Except.noConfusion happ
    | some v =>
      simp only [applyOp, hj, hsm] at happ
      injection happ with h
      have ht2 : t2 = { t with rows := fillColumn j v t.rows } :=
        (congrArg Prod.fst h).symm
      subst ht2
      exact fill_frame t j v
  | fillCustom ov =>
    cases ov with
    | none =>
      simp only [applyOp, hj] at happ
      injection happ with h
      have ht2 : t2 = t := (congrArg Prod.fst h).symm
      subst ht2
      exact ⟨rfl, rfl, rfl, fun i k hk => rfl, fun i k c hc hm => hc⟩
    | some s =>
      simp only [applyOp, hj] at happ
      injection happ with h
      have ht2 : t2 = { t with rows := fillColumn j (Cell.str s) t.rows } :=
        (congrArg Prod.fst h).symm
      subst ht2
      exact fill_frame t j (Cell.str s)

/-- Witness for C10: FillCustom on the text column fills only the missing
cell and preserves the row count. -/
theorem C10_witness :
    applyOp tText (.resolveMissing ['c'] (.fillCustom (some ['y'])))
        = .ok (⟨tText.names, tText.dtypes,
            [[Cell.str ['x']], [Cell.str ['y']]]⟩,
            some "Filled missing values in 'c' with custom value: y.") ∧
      (⟨tText.names, tText.dtypes,
          [[Cell.str ['x']], [Cell.str ['y']]]⟩ : Table).rows.length
        = tText.rows.length :=
  ⟨by decide,
    (C10_fill_frame tText ['c'] 0 (.fillCustom (some ['y'])) (by decide)
      (by decide)
      ⟨tText.names, tText.dtypes, [[Cell.str ['x']], [Cell.str ['y']]]⟩
      (some "Filled missing values in 'c' with custom value: y.")
      (by decide)).2.2.1⟩

theorem digitChar_digit (d : Nat) (hd : d < 10) :
    isDigitChar (Nat.digitChar d) = true ∧ (Nat.digitChar d).toNat - 48 = d := by
  interval_cases d <;> exact ⟨by decide, by decide⟩

theorem natToChars_ne_nil (n : Nat) : natToChars n ≠ [] := by
  unfold natToChars
  by_cases h : n = 0
  · simp [h]
  · rw [if_neg h]
    simp only [ne_eq, List.reverse_eq_nil_iff, List.map_eq_nil_iff]
    exact Nat.digits_ne_nil_iff_ne_zero.mpr h

theorem natToChars_all_digits (n : Nat) :
    ∀ c ∈ natToChars n, isDigitChar c = true := by
  intro c hc
  unfold natToChars at hc
  by_cases h : n = 0
  · rw [if_pos h] at hc
    simp only [List.mem_singleton] at hc
    subst hc
    decide
  · rw [if_neg h] at hc
    rw [List.mem_reverse, List.mem_map] at hc
    obtain ⟨d, hd, rfl⟩ := hc
    exact (digitChar_digit d (Nat.digits_lt_base (by norm_num) hd)).1

theorem digitsVal_eq (ds : List Nat) :
    ∀ a : Nat, digitsVal ds a = a * 10 ^ ds.length + Nat.ofDigits 10 ds.reverse := by
  induction ds with
  | nil => intro a; simp [digitsVal, Nat.ofDigits]
  | cons d ds ih =>
    intro a
    rw [show digitsVal (d :: ds) a = digitsVal ds (a * 10 + d) from rfl, ih]
    rw [List.reverse_cons, Nat.ofDigits_append]
    simp only [List.length_cons, List.length_reverse, Nat.ofDigits_singleton]
    ring

theorem natToChars_val (n : Nat) :
    digitsVal ((natToChars n).map (fun c => c.toNat - 48)) 0 = n := by
  by_cases h : n = 0
  · subst h; decide
  · unfold natToChars
    rw [if_neg h, ← List.map_reverse, List.map_map]
    have hcg : (Nat.digits 10 n).reverse.map
        ((fun c => c.toNat - 48) ∘ Nat.digitChar)
        = (Nat.digits 10 n).reverse.map id := by
      apply List.map_congr_left
      intro d hd
      rw [List.mem_reverse] at hd
      exact (digitChar_digit d (Nat.digits_lt_base (by norm_num) hd)).2
    rw [hcg, List.map_id, digitsVal_eq, List.reverse_reverse]
    simp [Nat.ofDigits_digits]

theorem natToChars_length_le (m k : Nat) (hm : m < 10 ^ k) (hk : 1 ≤ k) :
    (natToChars m).length ≤ k := by
  unfold natToChars
  by_cases h : m = 0
  · rw [if_pos h]
    simpa using hk
  · rw [if_neg h]
    rw [List.length_reverse, List.length_map]
    by_contra hlen
    push_neg at hlen
    have h1 := Nat.base_pow_length_digits_le 10 m (by norm_num) h
    have h2 : (10 : Nat) ^ (k + 1) ≤ 10 ^ (Nat.digits 10 m).length :=
      Nat.pow_le_pow_right (by norm_num) hlen
    have h3 : (10 : Nat) ^ (k + 1) ≤ 10 * m := le_trans h2 h1
    rw [pow_succ] at h3
    have h4 : (10 : Nat) ^ k ≤ m := by
      have := Nat.le_of_mul_le_mul_right (by omega : 10 ^ k * 10 ≤ m * 10) (by norm_num)
      exact this
    omega

theorem digitsVal_zeros (z : Nat) (ds : List Nat) :
    ∀ a : Nat, digitsVal (List.replicate z 0 ++ ds) a = digitsVal ds (a * 10 ^ z) := by
  induction z with
  | zero => intro a; simp [digitsVal]
  | succ z ih =>
    intro a
    rw [List.replicate_succ, List.cons_append,
      show digitsVal (0 :: (List.replicate z 0 ++ ds)) a
        = digitsVal (List.replicate z 0 ++ ds) (a * 10 + 0) from rfl, ih]
    congr 1
    ring

theorem padFrac_all_digits (k m : Nat) :
    ∀ c ∈ padFrac k m, isDigitChar c = true := by
  intro c hc
  unfold padFrac at hc
  rw [List.mem_append] at hc
  rcases hc with hc | hc
  · rw [List.mem_replicate] at hc
    rw [hc.2]
    decide
  · exact natToChars_all_digits m c hc

theorem padFrac_length (k m : Nat) (hm : m < 10 ^ k) (hk : 1 ≤ k) :
    (padFrac k m).length = k := by
  unfold padFrac
  rw [List.length_append, List.length_replicate]
  have := natToChars_length_le m k hm hk
  omega

theorem padFrac_val (k m : Nat) :
    digitsVal ((padFrac k m).map (fun c => c.toNat - 48)) 0 = m := by
  unfold padFrac
  rw [List.map_append]
  have hrep : (List.replicate (k - (natToChars m).length) '0').map
      (fun c => c.toNat - 48)
      = List.replicate (k - (natToChars m).length) 0 := by
    have h0 : '0'.toNat - 48 = 0 := by decide
    rw [List.map_replicate, h0]
  rw [hrep, digitsVal_zeros]
  simpa using natToChars_val m

theorem takeWhile_all (p : Char → Bool) (A : List Char)
    (hA : ∀ c ∈ A, p c = true) :
    A.takeWhile p = A ∧ A.dropWhile p = [] := by
  induction A with
  | nil => exact ⟨rfl, rfl⟩
  | cons a A ih =>
    have ha : p a = true := hA a (by simp)
    have ih2 := ih (fun c hc => hA c (by simp [hc]))
    constructor
    · simp [List.takeWhile_cons, ha, ih2.1]
    · rw [List.dropWhile_cons, if_pos ha, ih2.2]

theorem split_at_stop (p : Char → Bool) (A : List Char) (b : Char)
    (B : List Char) (hA : ∀ c ∈ A, p c = true) (hb : p b = false) :
    (A ++ b :: B).takeWhile p = A ∧ (A ++ b :: B).dropWhile p = b :: B := by
  induction A with
  | nil =>
    constructor
    · simp [List.takeWhile_cons, hb]
    · simp only [List.nil_append, List.dropWhile_cons, hb]
      rw [if_neg (by simp)]
  | cons a A ih =>
    have ha : p a = true := hA a (by simp)
    have ih2 := ih (fun c hc => hA c (by simp [hc]))
    constructor
    · rw [List.cons_append]
      simp [List.takeWhile_cons, ha, ih2.1]
    · rw [List.cons_append, List.dropWhile_cons, if_pos ha, ih2.2]

theorem strip_of_no_space (s : List Char)
    (h : ∀ c ∈ s, isSpaceChar c = false) : strip s = s := by
  have hfront : ∀ u : List Char, (∀ c ∈ u, isSpaceChar c = false) →
      u.dropWhile isSpaceChar = u := by
    intro u hu
    cases u with
    | nil => rfl
    | cons a u2 =>
      rw [List.dropWhile_cons, if_neg (by rw [hu a (by simp)]; simp)]
  unfold strip
  rw [hfront s h, hfront s.reverse (fun c hc => h c (List.mem_reverse.mp hc)),
    List.reverse_reverse]

theorem posChars_head (q : Rat) :
    ∃ c cs, posChars q = c :: cs ∧ isDigitChar c = true := by
  unfold posChars
  cases hn : natToChars (q.num.toNat * (10 ^ q.den / q.den) / 10 ^ q.den) with
  | nil => exact absurd hn (natToChars_ne_nil _)
  | cons c cs =>
    refine ⟨c, cs ++ '.' :: padFrac q.den
      (q.num.toNat * (10 ^ q.den / q.den) % 10 ^ q.den), by simp, ?_⟩
    exact natToChars_all_digits _ c (by rw [hn]; simp)

theorem posChars_all (q : Rat) :
    ∀ c ∈ posChars q, isDigitChar c = true ∨ c = '.' := by
  intro c hc
  unfold posChars at hc
  rw [List.mem_append] at hc
  rcases hc with hc | hc
  · exact Or.inl (natToChars_all_digits _ c hc)
  · rw [List.mem_cons] at hc
    rcases hc with rfl | hc
    · exact Or.inr rfl
    · exact Or.inl (padFrac_all_digits _ _ c hc)

theorem ratToChars_all (q : Rat) :
    ∀ c ∈ ratToChars q, isDigitChar c = true ∨ c = '.' ∨ c = '-' := by
  intro c hc
  unfold ratToChars at hc
  by_cases h : q < 0
  · rw [if_pos h, List.mem_cons] at hc
    rcases hc with rfl | hc
    · exact Or.inr (Or.inr rfl)
    · rcases posChars_all _ c hc with h2 | h2
      · exact Or.inl h2
      · exact Or.inr (Or.inl h2)
  · rw [if_neg h] at hc
    rcases posChars_all _ c hc with h2 | h2
    · exact Or.inl h2
    · exact Or.inr (Or.inl h2)

theorem digit_ne (c : Char) (h : isDigitChar c = true) (d : Char)
    (hd : d.toNat < 48 ∨ 57 < d.toNat) : c ≠ d := by
  intro he
  subst he
  unfold isDigitChar at h
  rw [decide_eq_true_eq] at h
  omega

theorem numChar_not_space (c : Char)
    (h : isDigitChar c = true ∨ c = '.' ∨ c = '-') : isSpaceChar c = false := by
  rcases h with h | rfl | rfl
  · unfold isSpaceChar
    simp [digit_ne c h ' ' (Or.inl (by decide)),
      digit_ne c h '\t' (Or.inl (by decide)),
      digit_ne c h '\n' (Or.inl (by decide)),
      digit_ne c h '\r' (Or.inl (by decide))]
  · decide
  · decide

theorem ratToChars_needsQuote (q : Rat) : needsQuote (ratToChars q) = false := by
  unfold needsQuote
  rw [List.any_eq_false]
  intro c hc
  rcases ratToChars_all q c hc with h | h | h
  · simp [digit_ne c h ',' (Or.inl (by decide)),
      digit_ne c h '"' (Or.inl (by decide)),
      digit_ne c h '\n' (Or.inl (by decide)),
      digit_ne c h '\r' (Or.inl (by decide))]
  · subst h; decide
  · subst h; decide

theorem ratToChars_ne_nil (q : Rat) : ratToChars q ≠ [] := by
  unfold ratToChars
  obtain ⟨c, cs, hcc, hdig⟩ := posChars_head q
  by_cases h : q < 0
  · rw [if_pos h]
    simp
  · rw [if_neg h, hcc]
    simp

theorem ratToChars_not_na (q : Rat) :
    naTokens.contains (ratToChars q) = false := by
  by_contra hcon
  rw [Bool.not_eq_false] at hcon
  have hmem : ratToChars q ∈ naTokens := by
    simpa using hcon
  have hall := ratToChars_all q
  unfold naTokens at hmem
  simp only [List.mem_cons, List.mem_singleton, List.not_mem_nil, or_false] at hmem
  rcases hmem with h | h | h | h | h | h | h | h | h | h | h | h | h | h | h | h | h | h
  · rcases hall '#' (by rw [h]; decide) with h2 | h2 | h2 <;>
      exact absurd h2 (by decide)
  · rcases hall '#' (by rw [h]; decide) with h2 | h2 | h2 <;>
      exact absurd h2 (by decide)
  · rcases hall '#' (by rw [h]; decide) with h2 | h2 | h2 <;>
      exact absurd h2 (by decide)
  · rcases hall '#' (by rw [h]; decide) with h2 | h2 | h2 <;>
      exact absurd h2 (by decide)
  · rcases hall '#' (by rw [h]; decide) with h2 | h2 | h2 <;>
      exact absurd h2 (by decide)
  · rcases hall 'N' (by rw [h]; decide) with h2 | h2 | h2 <;>
      exact absurd h2 (by decide)
  · rcases hall 'n' (by rw [h]; decide) with h2 | h2 | h2 <;>
      exact absurd h2 (by decide)
  · rcases hall '#' (by rw [h]; decide) with h2 | h2 | h2 <;>
      exact absurd h2 (by decide)
  · rcases hall '#' (by rw [h]; decide) with h2 | h2 | h2 <;>
      exact absurd h2 (by decide)
  · rcases hall '<' (by rw [h]; decide) with h2 | h2 | h2 <;>
      exact absurd h2 (by decide)
  · rcases hall 'N' (by rw [h]; decide) with h2 | h2 | h2 <;>
      exact absurd h2 (by decide)
  · rcases hall 'N' (by rw [h]; decide) with h2 | h2 | h2 <;>
      exact absurd h2 (by decide)
  · rcases hall 'N' (by rw [h]; decide) with h2 | h2 | h2 <;>
      exact absurd h2 (by decide)
  · rcases hall 'N' (by rw [h]; decide) with h2 | h2 | h2 <;>
      exact absurd h2 (by decide)
  · rcases hall 'N' (by rw [h]; decide) with h2 | h2 | h2 <;>
      exact absurd h2 (by decide)
  · rcases hall 'n' (by rw [h]; decide) with h2 | h2 | h2 <;>
      exact absurd h2 (by decide)
  · rcases hall 'n' (by rw [h]; decide) with h2 | h2 | h2 <;>
      exact absurd h2 (by decide)
  · rcases hall 'n' (by rw [h]; decide) with h2 | h2 | h2 <;>
      exact absurd h2 (by decide)

theorem ratToChars_head (q : Rat) :
    ∃ c cs, ratToChars q = c :: cs ∧ (c = '-' ∨ isDigitChar c = true) := by
  unfold ratToChars
  by_cases h : q < 0
  · rw [if_pos h]
    exact ⟨'-', posChars (-q), rfl, Or.inl rfl⟩
  · rw [if_neg h]
    obtain ⟨c, cs, hcc, hdig⟩ := posChars_head q
    exact ⟨c, cs, hcc, Or.inr hdig⟩

theorem dropSign_ratToChars (q : Rat) :
    ∃ q2 : Rat, dropSign (ratToChars q) = posChars q2 := by
  unfold ratToChars
  by_cases h : q < 0
  · rw [if_pos h]
    refine ⟨-q, ?_⟩
    unfold dropSign
    dsimp only
    rfl
  · rw [if_neg h]
    refine ⟨q, ?_⟩
    obtain ⟨c, cs, hcc, hdig⟩ := posChars_head q
    rw [hcc]
    unfold dropSign
    dsimp only
    rw [if_neg (by
      simp [digit_ne c hdig '-' (Or.inl (by decide)),
        digit_ne c hdig '+' (Or.inl (by decide))])]

theorem strip_ratToChars (q : Rat) : strip (ratToChars q) = ratToChars q :=
  strip_of_no_space _ (fun c hc => numChar_not_space c (ratToChars_all q c hc))

theorem ratToChars_not_inf (q : Rat) : isInfString (ratToChars q) = false := by
  obtain ⟨q2, hdrop⟩ := dropSign_ratToChars q
  have hdot : '.' ∈ (posChars q2).map Char.toLower := by
    rw [List.mem_map]
    refine ⟨'.', ?_, by decide⟩
    unfold posChars
    exact List.mem_append_right _ (List.mem_cons_self _ _)
  have hne1 : (posChars q2).map Char.toLower ≠ "inf".toList := by
    intro he
    rw [he] at hdot
    exact absurd hdot (by decide)
  have hne2 : (posChars q2).map Char.toLower ≠ "infinity".toList := by
    intro he
    rw [he] at hdot
    exact absurd hdot (by decide)
  unfold isInfString
  rw [strip_ratToChars, hdrop]
  rw [decide_eq_false hne1, decide_eq_false hne2]
  rfl

theorem ratToChars_ne_word (q : Rat) (d : Char) (rest : List Char)
    (hd1 : d ≠ '-') (hd2 : isDigitChar d = false) :
    ratToChars q ≠ d :: rest := by
  intro he
  obtain ⟨c, cs, hcc, hc⟩ := ratToChars_head q
  rw [hcc] at he
  have hcd : c = d := (List.cons.injEq _ _ _ _ ▸ he).1
  subst hcd
  rcases hc with hc | hc
  · exact hd1 hc
  · rw [hc] at hd2
    exact absurd hd2 (by decide)

theorem ratToChars_not_bool (q : Rat) : isBoolString (ratToChars q) = false := by
  have h1 : ratToChars q ≠ "True".toList := by
    rw [show ("True".toList : List Char) = 'T' :: "rue".toList from rfl]
    exact ratToChars_ne_word q 'T' _ (by decide) (by decide)
  have h2 : ratToChars q ≠ "TRUE".toList := by
    rw [show ("TRUE".toList : List Char) = 'T' :: "RUE".toList from rfl]
    exact ratToChars_ne_word q 'T' _ (by decide) (by decide)
  have h3 : ratToChars q ≠ "true".toList := by
    rw [show ("true".toList : List Char) = 't' :: "rue".toList from rfl]
    exact ratToChars_ne_word q 't' _ (by decide) (by decide)
  have h4 : ratToChars q ≠ "False".toList := by
    rw [show ("False".toList : List Char) = 'F' :: "alse".toList from rfl]
    exact ratToChars_ne_word q 'F' _ (by decide) (by decide)
  have h5 : ratToChars q ≠ "FALSE".toList := by
    rw [show ("FALSE".toList : List Char) = 'F' :: "ALSE".toList from rfl]
    exact ratToChars_ne_word q 'F' _ (by decide) (by decide)
  have h6 : ratToChars q ≠ "false".toList := by
    rw [show ("false".toList : List Char) = 'f' :: "alse".toList from rfl]
    exact ratToChars_ne_word q 'f' _ (by decide) (by decide)
  unfold isBoolString
  rw [decide_eq_false h1, decide_eq_false h2, decide_eq_false h3,
    decide_eq_false h4, decide_eq_false h5, decide_eq_false h6]
  rfl

theorem posParse_split (A B : List Char)
    (hA : ∀ c ∈ A, isDigitChar c = true) (hAne : A ≠ [])
    (hB : ∀ c ∈ B, isDigitChar c = true) :
    posParse (A ++ '.' :: B)
      = some (((digitsVal (A.map (fun c => c.toNat - 48)) 0 : Nat) : Rat)
          + ((digitsVal (B.map (fun c => c.toNat - 48)) 0 : Nat) : Rat)
            / (10 : Rat) ^ B.length) := by
  simp only [posParse]
  rw [(split_at_stop _ A '.' B hA (by decide)).1,
    (split_at_stop _ A '.' B hA (by decide)).2]
  dsimp only
  rw [if_pos rfl, (takeWhile_all _ B hB).1, (takeWhile_all _ B hB).2]
  rw [if_neg (fun hcon => hAne hcon.1)]

theorem posParse_posChars (q : Rat) (h0 : 0 ≤ q)
    (hden : q.den ∣ 10 ^ q.den) : posParse (posChars q) = some q := by
  have hdpos : 0 < q.den := q.den_pos
  have h10 : (0 : Nat) < 10 ^ q.den := pow_pos (by norm_num) _
  have hmodlt : q.num.toNat * (10 ^ q.den / q.den) % 10 ^ q.den < 10 ^ q.den :=
    Nat.mod_lt _ h10
  unfold posChars
  rw [posParse_split _ _ (natToChars_all_digits _) (natToChars_ne_nil _)
    (padFrac_all_digits _ _)]
  rw [natToChars_val, padFrac_val, padFrac_length _ _ hmodlt hdpos]
  congr 1
  have hM : q.den * (10 ^ q.den / q.den) = 10 ^ q.den :=
    Nat.mul_div_cancel' hden
  have hd0 : ((q.den : Rat)) ≠ 0 := by
    simpa using (Nat.cast_ne_zero (R := Rat)).mpr (Nat.pos_iff.mp hdpos)
  have hqden : q * (q.den : Rat) = (q.num : Rat) := by
    have h := Rat.num_div_den q
    rw [div_eq_iff hd0] at h
    linarith
  have hNQ : ((q.num.toNat * (10 ^ q.den / q.den) : Nat) : Rat)
      = q * (10 : Rat) ^ q.den := by
    have h1 : ((q.num.toNat * (10 ^ q.den / q.den) : Nat) : Rat)
        = ((q.num.toNat : Nat) : Rat) * ((10 ^ q.den / q.den : Nat) : Rat) := by
      push_cast
      ring
    have h2 : ((q.num.toNat : Nat) : Rat) = (q.num : Rat) := by
      rw [← Int.cast_natCast (R := Rat), Int.toNat_of_nonneg (Rat.num_nonneg.mpr h0)]
    have h3 : (q.den : Rat) * ((10 ^ q.den / q.den : Nat) : Rat)
        = (10 : Rat) ^ q.den := by
      rw [← Nat.cast_mul, hM]
      push_cast
      ring
    rw [h1, h2, ← h3, ← mul_assoc, hqden]
  have hdm := Nat.div_add_mod (q.num.toNat * (10 ^ q.den / q.den)) (10 ^ q.den)
  have hcast : (10 : Rat) ^ q.den
        * ((q.num.toNat * (10 ^ q.den / q.den) / 10 ^ q.den : Nat) : Rat)
      + ((q.num.toNat * (10 ^ q.den / q.den) % 10 ^ q.den : Nat) : Rat)
      = q * (10 : Rat) ^ q.den := by
    have hdm2 : ((10 ^ q.den * (q.num.toNat * (10 ^ q.den / q.den) / 10 ^ q.den)
          + q.num.toNat * (10 ^ q.den / q.den) % 10 ^ q.den : Nat) : Rat)
        = ((q.num.toNat * (10 ^ q.den / q.den) : Nat) : Rat) :=
      Nat.cast_inj.mpr hdm
    rw [hNQ] at hdm2
    push_cast at hdm2
    linarith [hdm2]
  have hP : ((10 : Rat) ^ q.den) ≠ 0 := by positivity
  field_simp
  linarith [hcast]

theorem numParse_ratToChars (q : Rat) (hden : q.den ∣ 10 ^ q.den) :
    numParse (ratToChars q) = some q := by
  by_cases hq : q < 0
  · have hpos : (0 : Rat) ≤ -q := by linarith
    have hdneg : (-q).den = q.den := Rat.neg_den q
    unfold ratToChars
    rw [if_pos hq]
    unfold numParse
    rw [strip_of_no_space _ (fun c hc => by
      rw [List.mem_cons] at hc
      rcases hc with rfl | hc
      · decide
      · exact numChar_not_space c (by
          rcases posChars_all _ c hc with h | h
          · exact Or.inl h
          · exact Or.inr (Or.inl h)))]
    dsimp only
    rw [if_pos rfl, posParse_posChars (-q) hpos (by rw [hdneg]; exact hden)]
    simp
  · have h0 : (0 : Rat) ≤ q := le_of_not_lt hq
    unfold ratToChars
    rw [if_neg hq]
    unfold numParse
    rw [strip_of_no_space _ (fun c hc => numChar_not_space c (by
      rcases posChars_all _ c hc with h | h
      · exact Or.inl h
      · exact Or.inr (Or.inl h)))]
    obtain ⟨c, cs, hshape, hdig⟩ := posChars_head q
    rw [hshape]
    dsimp only
    rw [if_neg (digit_ne c hdig '-' (Or.inl (by decide))),
      if_neg (digit_ne c hdig '+' (Or.inl (by decide))), ← hshape]
    exact posParse_posChars q h0 hden

theorem splitOnChar_ne_nil (c : Char) (s : List Char) : splitOnChar c s ≠ [] := by
  induction s with
  | nil => simp [splitOnChar]
  | cons a rest ih =>
    unfold splitOnChar
    cases h : splitOnChar c rest with
    | nil => exact absurd h ih
    | cons f fs => by_cases hac : a = c <;> simp [hac]

theorem splitOnChar_append (c : Char) (p : List Char)
    (hp : ∀ x ∈ p, x ≠ c) (s f : List Char) (fs : List (List Char))
    (h : splitOnChar c s = f :: fs) :
    splitOnChar c (p ++ s) = (p ++ f) :: fs := by
  induction p with
  | nil => simpa using h
  | cons a p2 ih =>
    have ha : a ≠ c := hp a (by simp)
    have ih2 := ih (fun x hx => hp x (by simp [hx]))
    rw [List.cons_append]
    unfold splitOnChar
    rw [ih2]
    dsimp only
    rw [if_neg ha]
    rfl

theorem splitOnChar_cons_self (c : Char) (s : List Char) :
    splitOnChar c (c :: s) = [] :: splitOnChar c s := by
  cases h : splitOnChar c s with
  | nil => exact absurd h (splitOnChar_ne_nil c s)
  | cons f fs =>
    unfold splitOnChar
    rw [h]
    dsimp only
    rw [if_pos rfl]

theorem splitOnChar_joinSep (c : Char) (parts : List (List Char))
    (hne : parts ≠ []) (hfree : ∀ p ∈ parts, ∀ x ∈ p, x ≠ c) :
    splitOnChar c (joinSep c parts) = parts := by
  induction parts with
  | nil => exact absurd rfl hne
  | cons p ps ih =>
    cases ps with
    | nil =>
      rw [show joinSep c [p] = p from rfl]
      have h2 := splitOnChar_append c p (hfree p (by simp)) [] [] [] rfl
      rw [List.append_nil] at h2
      exact h2
    | cons p2 ps2 =>
      have hj : joinSep c (p :: p2 :: ps2) = p ++ c :: joinSep c (p2 :: ps2) := rfl
      have ihr := ih (by simp) (fun x hx => hfree x (by simp [hx]))
      have hcons := splitOnChar_cons_self c (joinSep c (p2 :: ps2))
      rw [ihr] at hcons
      have happ := splitOnChar_append c p (hfree p (by simp))
        (c :: joinSep c (p2 :: ps2)) [] (p2 :: ps2) hcons
      rw [hj, happ, List.append_nil]

theorem mem_joinSep (sep : Char) (parts : List (List Char)) (x : Char)
    (hx : x ∈ joinSep sep parts) : x = sep ∨ ∃ p ∈ parts, x ∈ p := by
  induction parts with
  | nil => simp [joinSep] at hx
  | cons p ps ih =>
    cases ps with
    | nil => exact Or.inr ⟨p, by simp, by simpa [joinSep] using hx⟩
    | cons p2 ps2 =>
      rw [show joinSep sep (p :: p2 :: ps2)
        = p ++ sep :: joinSep sep (p2 :: ps2) from rfl] at hx
      rw [List.mem_append] at hx
      rcases hx with hx | hx
      · exact Or.inr ⟨p, by simp, hx⟩
      · rw [List.mem_cons] at hx
        rcases hx with rfl | hx
        · exact Or.inl rfl
        · rcases ih hx with h | ⟨pp, hpp, hxp⟩
          · exact Or.inl h
          · exact Or.inr ⟨pp, List.mem_cons_of_mem p hpp, hxp⟩

theorem joinSep_head_ne_nil (c : Char) (p : List Char)
    (ps : List (List Char)) (hp : p ≠ []) : joinSep c (p :: ps) ≠ [] := by
  cases ps with
  | nil => simpa [joinSep] using hp
  | cons p2 ps2 =>
    rw [show joinSep c (p :: p2 :: ps2) = p ++ c :: joinSep c (p2 :: ps2) from rfl]
    cases p with
    | nil => exact absurd rfl hp
    | cons a p3 => simp

theorem fieldOfCell_free (c : Cell)
    (hok : cellOkNumericB c = true ∨ cellOkTextB c = true) :
    ∀ x ∈ fieldOfCell c, x ≠ ',' ∧ x ≠ '\n' := by
  intro x hx
  cases c with
  | missing => simp [fieldOfCell] at hx
  | num q =>
    rcases ratToChars_all q x hx with hd | hd | hd
    · exact ⟨digit_ne x hd ',' (Or.inl (by decide)),
        digit_ne x hd '\n' (Or.inl (by decide))⟩
    · subst hd; exact ⟨by decide, by decide⟩
    · subst hd; exact ⟨by decide, by decide⟩
  | str s =>
    rcases hok with hok | hok
    · simp [cellOkNumericB] at hok
    · unfold cellOkTextB at hok
      simp only [Bool.and_eq_true, Bool.not_eq_true'] at hok
      obtain ⟨⟨⟨⟨⟨h1, h2⟩, h3⟩, h4⟩, h5⟩, h6⟩ := hok
      have hxin : x ∈ s := by
        simp only [fieldOfCell, encodeField] at hx
        rwa [if_neg (by rw [h2]; simp)] at hx
      unfold needsQuote at h2
      rw [List.any_eq_false] at h2
      have hthis := h2 x hxin
      simp at hthis
      exact ⟨by tauto, by tauto⟩

theorem field_num_not_na (q : Rat) :
    isNaField (fieldOfCell (Cell.num q)) = false := by
  have h1 : (ratToChars q).isEmpty = false := by
    cases h : ratToChars q with
    | nil => exact absurd h (ratToChars_ne_nil q)
    | cons a l => rfl
  show isNaField (ratToChars q) = false
  unfold isNaField
  rw [h1, ratToChars_not_na q]
  rfl

theorem field_text_ok (s : List Char) (hok : cellOkTextB (Cell.str s) = true) :
    fieldOfCell (Cell.str s) = s ∧ isNaField s = false ∧ numParse s = none
      ∧ needsQuote s = false ∧ isInfString s = false
      ∧ isBoolString s = false := by
  unfold cellOkTextB at hok
  simp only [Bool.and_eq_true, Bool.not_eq_true'] at hok
  obtain ⟨⟨⟨⟨⟨h1, h2⟩, h3⟩, h4⟩, h5⟩, h6⟩ := hok
  refine ⟨?_, ?_, ?_, h2, h5, h6⟩
  · simp only [fieldOfCell, encodeField]
    rw [if_neg (by rw [h2]; simp)]
  · unfold isNaField
    rw [h1, h4]
    rfl
  · exact Option.isNone_iff_eq_none.mp h3

theorem colNum_all_of_numeric (t : Table) (j : Nat)
    (h : ∀ c ∈ colCells t j, cellOkNumericB c = true) :
    ((colCells t j).map fieldOfCell).all
      (fun f => isNaField f || (numParse f).isSome) = true := by
  rw [List.all_eq_true]
  intro f hf
  rw [List.mem_map] at hf
  obtain ⟨c, hc, rfl⟩ := hf
  have hok := h c hc
  cases c with
  | missing => rfl
  | str s => simp [cellOkNumericB] at hok
  | num q =>
    have hdvd : q.den ∣ 10 ^ q.den := by
      unfold cellOkNumericB at hok
      exact of_decide_eq_true hok
    have hp := numParse_ratToChars q hdvd
    show (isNaField (ratToChars q) || (numParse (ratToChars q)).isSome) = true
    rw [hp]
    simp

theorem colNum_all_of_object (t : Table) (j : Nat)
    (hall : ∀ c ∈ colCells t j, cellOkTextB c = true)
    (hstr : hasStrCell (colCells t j) = true) :
    ((colCells t j).map fieldOfCell).all
      (fun f => isNaField f || (numParse f).isSome) = false := by
  unfold hasStrCell at hstr
  rw [List.any_eq_true] at hstr
  obtain ⟨c, hc, hcs⟩ := hstr
  cases c with
  | missing => simp at hcs
  | num q => simp at hcs
  | str s =>
    have hok := hall _ hc
    obtain ⟨hfield, hna, hparse, _⟩ := field_text_ok s hok
    cases hres : ((colCells t j).map fieldOfCell).all
        (fun f => isNaField f || (numParse f).isSome) with
    | false => rfl
    | true =>
      exfalso
      rw [List.all_eq_true] at hres
      have h2 := hres (fieldOfCell (Cell.str s)) (List.mem_map_of_mem _ hc)
      rw [hfield, hna, hparse] at h2
      simp at h2

theorem colFields_eq (t : Table) (j : Nat) :
    (t.rows.map (List.map fieldOfCell)).filterMap (fun r => r[j]?)
      = (colCells t j).map fieldOfCell := by
  unfold colCells
  rw [List.filterMap_map, List.map_filterMap]
  apply List.filterMap_congr
  intro r hr
  simp [Function.comp, List.getElem?_map]

theorem mapIdxL_length (f : Nat → α → β) (l : List α) :
    (mapIdxL f l).length = l.length := by
  induction l generalizing f with
  | nil => rfl
  | cons a as ih =>
    simp only [mapIdxL, List.length_cons]
    rw [ih]

theorem mapIdxL_map (f : Nat → β → γ) (g : α → β) (l : List α) :
    mapIdxL f (l.map g) = mapIdxL (fun i x => f i (g x)) l := by
  induction l generalizing f with
  | nil => rfl
  | cons a as ih =>
    simp only [List.map_cons, mapIdxL]
    congr 1
    exact ih _

theorem build_field (t : Table)
    (hcols : ∀ j < t.names.length,
      (t.dtypes[j]? = some Dtype.numeric →
        ∀ c ∈ colCells t j, cellOkNumericB c = true) ∧
      (t.dtypes[j]? = some Dtype.object →
        (∀ c ∈ colCells t j, cellOkTextB c = true) ∧
          hasStrCell (colCells t j) = true))
    (hdlen : t.dtypes.length = t.names.length)
    (k : Nat) (hk : k < t.names.length) (c : Cell) (hmem : c ∈ colCells t k) :
    (if isNaField (fieldOfCell c) then Cell.missing
     else if ((colCells t k).map fieldOfCell).all
         (fun f => isNaField f || (numParse f).isSome) then
       match numParse (fieldOfCell c) with
       | some q => Cell.num q
       | none => Cell.str (fieldOfCell c)
     else Cell.str (fieldOfCell c)) = c := by
  have hkd : k < t.dtypes.length := by omega
  have hdt : t.dtypes[k]? = some (t.dtypes[k]) := List.getElem?_eq_getElem hkd
  cases c with
  | missing => rw [if_pos (by rfl)]
  | num q =>
    cases hd : t.dtypes[k] with
    | object =>
      exfalso
      have h2 := ((hcols k hk).2 (by rw [hdt, hd])).1 _ hmem
      simp [cellOkTextB] at h2
    | numeric =>
      have hnum := (hcols k hk).1 (by rw [hdt, hd])
      have hok := hnum _ hmem
      have hdvd : q.den ∣ 10 ^ q.den := by
        unfold cellOkNumericB at hok
        exact of_decide_eq_true hok
      rw [if_neg (by rw [field_num_not_na q]; simp)]
      rw [if_pos (colNum_all_of_numeric t k hnum)]
      rw [show numParse (fieldOfCell (Cell.num q)) = some q
        from numParse_ratToChars q hdvd]
  | str s =>
    cases hd : t.dtypes[k] with
    | numeric =>
      exfalso
      have h2 := (hcols k hk).1 (by rw [hdt, hd]) _ hmem
      simp [cellOkNumericB] at h2
    | object =>
      have hob := (hcols k hk).2 (by rw [hdt, hd])
      have hok := hob.1 _ hmem
      obtain ⟨hfield, hna, hparse, _⟩ := field_text_ok s hok
      rw [hfield]
      rw [if_neg (by rw [hna]; simp)]
      rw [if_neg (by rw [colNum_all_of_object t k hob.1 hob.2]; simp)]

/-- C6 (amended): loading the bytes produced by exporting a well-formed
table yields the table back, numeric and text values preserved verbatim;
well-formedness (see `wellFormed`) excludes exactly the content the loader
reinterprets — empty-string cells, number-like or NA-token strings,
delimiter characters, and rows that serialise to blank lines. -/
theorem C6_roundtrip_amended (t : Table) (hwf : wellFormed t) :
    read_csv (to_csv t) = .ok t := by
  obtain ⟨hne, hnodup, hnames, hdlen, hrowsne, hrect, hlinesne, hcols⟩ := hwf
  have hnpos : 0 < t.names.length := List.length_pos.mpr hne
  have hcellcol : ∀ r ∈ t.rows, ∀ (k : Nat) (c : Cell),
      r[k]? = some c → c ∈ colCells t k := by
    intro r hr k c hc
    unfold colCells
    rw [List.mem_filterMap]
    exact ⟨r, hr, hc⟩
  have hcellOK : ∀ r ∈ t.rows, ∀ (k : Nat) (c : Cell), r[k]? = some c →
      cellOkNumericB c = true ∨ cellOkTextB c = true := by
    intro r hr k c hc
    have hklt : k < r.length := by
      obtain ⟨hlt, _⟩ := List.getElem?_eq_some.mp hc
      exact hlt
    have hk : k < t.names.length := by rw [← hrect r hr]; exact hklt
    have hkd : k < t.dtypes.length := by omega
    have hmem := hcellcol r hr k c hc
    have hdt : t.dtypes[k]? = some (t.dtypes[k]) := List.getElem?_eq_getElem hkd
    cases hd : t.dtypes[k] with
    | numeric => exact Or.inl ((hcols k hk).1 (by rw [hdt, hd]) c hmem)
    | object => exact Or.inr (((hcols k hk).2 (by rw [hdt, hd])).1 c hmem)
  have hfree : ∀ r ∈ t.rows, ∀ fld ∈ r.map fieldOfCell, ∀ x ∈ fld,
      x ≠ ',' ∧ x ≠ '\n' := by
    intro r hr fld hfld x hx
    rw [List.mem_map] at hfld
    obtain ⟨c, hcmem, rfl⟩ := hfld
    obtain ⟨k, hkc⟩ := List.mem_iff_getElem?.mp hcmem
    exact fieldOfCell_free c (hcellOK r hr k c hkc) x hx
  have hnamechar : ∀ nm ∈ t.names, ∀ x ∈ nm, x ≠ ',' ∧ x ≠ '\n' := by
    intro nm hnm x hx
    have hq := (hnames nm hnm).2
    unfold needsQuote at hq
    rw [List.any_eq_false] at hq
    have hthis := hq x hx
    simp at hthis
    exact ⟨by tauto, by tauto⟩
  have hencNames : t.names.map encodeField = t.names := by
    conv_rhs => rw [← List.map_id t.names]
    apply List.map_congr_left
    intro nm hnm
    unfold encodeField
    rw [if_neg (by rw [(hnames nm hnm).2]; simp)]
    rfl
  have hL0 : csvLine (t.names.map encodeField) = joinSep ',' t.names := by
    rw [hencNames]
    rfl
  have hsplitLines : splitOnChar '\n' (to_csv t)
      = csvLine (t.names.map encodeField)
        :: t.rows.map (fun r => csvLine (r.map fieldOfCell)) := by
    apply splitOnChar_joinSep
    · simp
    · intro p hp x hxp
      rw [List.mem_cons] at hp
      rcases hp with rfl | hp
      · rw [hL0] at hxp
        rcases mem_joinSep ',' t.names x hxp with rfl | ⟨nm, hnm, hxnm⟩
        · decide
        · exact (hnamechar nm hnm x hxnm).2
      · rw [List.mem_map] at hp
        obtain ⟨r, hr, rfl⟩ := hp
        rcases mem_joinSep ',' _ x hxp with rfl | ⟨fld, hfld, hxf⟩
        · decide
        · exact (hfree r hr fld hfld x hxf).2
  have hnonempty_true : ∀ l : List Char, l ≠ [] → (!(l.isEmpty)) = true := by
    intro l hl
    cases l with
    | nil => exact absurd rfl hl
    | cons a l2 => rfl
  have hL0ne : csvLine (t.names.map encodeField) ≠ [] := by
    rw [hL0]
    cases hnm : t.names with
    | nil => exact absurd hnm hne
    | cons nm0 rest =>
      exact joinSep_head_ne_nil ',' nm0 rest (hnames nm0 (by rw [hnm]; simp)).1
  have hfilter : (splitOnChar '\n' (to_csv t)).filter (fun l => !(l.isEmpty))
      = csvLine (t.names.map encodeField)
        :: t.rows.map (fun r => csvLine (r.map fieldOfCell)) := by
    rw [hsplitLines]
    apply List.filter_eq_self.mpr
    intro l hl
    rw [List.mem_cons] at hl
    rcases hl with rfl | hl
    · exact hnonempty_true _ hL0ne
    · rw [List.mem_map] at hl
      obtain ⟨r, hr, rfl⟩ := hl
      exact hnonempty_true _ (hlinesne r hr)
  have hheadsplit : splitOnChar ',' (csvLine (t.names.map encodeField))
      = t.names := by
    rw [hL0]
    apply splitOnChar_joinSep _ _ hne
    intro p hp x hx
    exact (hnamechar p hp x hx).1
  have hrowsplit : ∀ r ∈ t.rows,
      splitOnChar ',' (csvLine (r.map fieldOfCell)) = r.map fieldOfCell := by
    intro r hr
    apply splitOnChar_joinSep
    · have hr0 : r ≠ [] := by
        intro hrnil
        have hlen := hrect r hr
        rw [hrnil] at hlen
        simp at hlen
        omega
      simpa using hr0
    · intro p hp x hx
      exact (hfree r hr p hp x hx).1
  have hFR : (t.rows.map (fun r => csvLine (r.map fieldOfCell))).map
        (splitOnChar ',')
      = t.rows.map (List.map fieldOfCell) := by
    rw [List.map_map]
    apply List.map_congr_left
    intro r hr
    exact hrowsplit r hr
  unfold read_csv
  rw [hfilter]
  dsimp only
  rw [hheadsplit, hFR]
  have hall : (t.rows.map (List.map fieldOfCell)).all
      (fun r => decide (r.length = t.names.length)) = true := by
    rw [List.all_eq_true]
    intro r2 hr2
    rw [List.mem_map] at hr2
    obtain ⟨r, hr, rfl⟩ := hr2
    simp [hrect r hr]
  rw [if_pos hall]
  have hnoib : (t.rows.map (List.map fieldOfCell)).any
      (fun r => r.any (fun f => isInfString f || isBoolString f)) = false := by
    rw [List.any_eq_false]
    intro r2 hr2
    rw [List.mem_map] at hr2
    obtain ⟨r, hr, rfl⟩ := hr2
    rw [Bool.not_eq_true, List.any_eq_false]
    intro f hf
    rw [List.mem_map] at hf
    obtain ⟨c, hcmem, rfl⟩ := hf
    rw [Bool.not_eq_true]
    have hok : cellOkNumericB c = true ∨ cellOkTextB c = true := by
      obtain ⟨k, hkc⟩ := List.mem_iff_getElem?.mp hcmem
      exact hcellOK r hr k c hkc
    cases c with
    | missing => decide
    | num q =>
      show (isInfString (ratToChars q) || isBoolString (ratToChars q)) = false
      rw [ratToChars_not_inf q, ratToChars_not_bool q]
      rfl
    | str s =>
      rcases hok with hok | hok
      · simp [cellOkNumericB] at hok
      · obtain ⟨hfield, hna, hparse, hq, hinf, hbool⟩ := field_text_ok s hok
        rw [hfield, hinf, hbool]
        rfl
  rw [if_neg (by rw [hnoib]; simp)]
  refine congrArg Except.ok (table_eq _ _ rfl ?_ ?_)
  · simp only [colFields_eq]
    apply List.ext_getElem?
    intro n
    by_cases hn : n < t.names.length
    · rw [List.getElem?_map, List.getElem?_range hn,
        List.getElem?_eq_getElem (show n < t.dtypes.length by omega)]
      simp only [Option.map_some']
      congr 1
      have hdt : t.dtypes[n]? = some (t.dtypes[n]) :=
        List.getElem?_eq_getElem (show n < t.dtypes.length by omega)
      cases hd : t.dtypes[n] with
      | numeric =>
        rw [if_pos (colNum_all_of_numeric t n
          ((hcols n hn).1 (by rw [hdt, hd])))]
      | object =>
        have hob := (hcols n hn).2 (by rw [hdt, hd])
        rw [if_neg (by rw [colNum_all_of_object t n hob.1 hob.2]; simp)]
    · rw [List.getElem?_eq_none (by simpa using hn),
        List.getElem?_eq_none (by omega)]
  · simp only [colFields_eq]
    rw [List.map_map]
    apply List.ext_getElem?
    intro i
    rw [List.getElem?_map]
    cases hri : t.rows[i]? with
    | none => rfl
    | some r =>
      have hrmem : r ∈ t.rows := by
        obtain ⟨hlt, hget⟩ := List.getElem?_eq_some.mp hri
        rw [← hget]
        exact List.getElem_mem hlt
      simp only [Option.map_some', Function.comp_apply]
      congr 1
      rw [mapIdxL_map]
      apply List.ext_getElem?
      intro k
      rw [mapIdxL_getElem?]
      cases hrk : r[k]? with
      | none => rfl
      | some c =>
        simp only [Option.map_some']
        congr 1
        have hklt : k < r.length := by
          obtain ⟨hlt, _⟩ := List.getElem?_eq_some.mp hrk
          exact hlt
        have hk : k < t.names.length := by rw [← hrect r hrmem]; exact hklt
        exact build_field t hcols hdlen k hk c (hcellcol r hrmem k c hrk)

/-- The table obtained by FillCustom with the empty string on `tText`. -/
theorem C6_counterexample :
    applyOp tText (.resolveMissing ['c'] (.fillCustom (some [])))
        = .ok ((⟨[['c']], [Dtype.object],
            [[Cell.str ['x']], [Cell.str []]]⟩ : Table),
            some "Filled missing values in 'c' with custom value: .") ∧
      read_csv (to_csv (⟨[['c']], [Dtype.object],
          [[Cell.str ['x']], [Cell.str []]]⟩ : Table))
        ≠ .ok (⟨[['c']], [Dtype.object],
            [[Cell.str ['x']], [Cell.str []]]⟩ : Table) :=
  ⟨by decide, by decide⟩

/-- Witness for C6: the two-column table round-trips. -/
theorem C6_witness : wellFormed tRound ∧ read_csv (to_csv tRound) = .ok tRound :=
  ⟨by decide, C6_roundtrip_amended tRound (by decide)⟩

end DataCleaner
